import Mathlib

/-!
Verification of the Asset-Metadata-Studio text-processing core
(`backend/app/parsing.py`, `backend/app/processors.py`, `backend/app/dedup.py`,
`backend/app/models.py`) against its natural-language specification.

Python strings are embedded as `List Char` (a Python `str` is a sequence of
Unicode code points).  Library primitives used by the code
(`str.strip`, `str.split`, `str.splitlines`, `str.lower`, `str.casefold`,
`unicodedata.normalize`, `unicodedata.category`) are modelled explicitly
below; each model states its scope in a doc comment.
-/

set_option maxRecDepth 4000

abbrev PyStr := List Char

/-- Convert a Lean string literal to the embedded Python-string type. -/
def pystr (s : String) : PyStr := s.data

/-- Model of the Python whitespace class used by `str.strip()`, `str.split()`
and `str.isspace()`: ASCII whitespace plus the Unicode space characters. -/
def pySpaceChars : List Char :=
  [' ', '\t', '\n', '\r', '\x0b', '\x0c', '\x1c', '\x1d', '\x1e', '\x1f',
   '\x85', '\xa0', '\u1680', '\u2000', '\u2001', '\u2002', '\u2003', '\u2004',
   '\u2005', '\u2006', '\u2007', '\u2008', '\u2009', '\u200a', '\u2028',
   '\u2029', '\u202f', '\u205f', '\u3000']

def pyIsSpace (c : Char) : Bool := pySpaceChars.contains c

/-- Python `value.strip()`. -/
def pyStrip (s : PyStr) : PyStr :=
  ((s.dropWhile pyIsSpace).reverse.dropWhile pyIsSpace).reverse

/-- Python `value.strip(chars)`: remove the characters of `cs` from both ends. -/
def pyStripChars (cs : List Char) (s : PyStr) : PyStr :=
  ((s.dropWhile cs.contains).reverse.dropWhile cs.contains).reverse

/-- Python `value.split(sep)` for a one-character class of separators:
split at every matching character, keeping empty pieces
(`"a,,b".split(",") == ["a", "", "b"]`). -/
def splitOnP (p : Char → Bool) : PyStr → List PyStr
  | [] => [[]]
  | c :: rest =>
    if p c then [] :: splitOnP p rest
    else
      match splitOnP p rest with
      | [] => [[c]]
      | piece :: more => (c :: piece) :: more

/-- Does `pat` occur at the start of `s`? (Python `s.startswith(pat)`.) -/
def startsWithSeq : PyStr → PyStr → Bool
  | [], _ => true
  | _, [] => false
  | p :: ps, c :: cs => p == c && startsWithSeq ps cs

/-- Python `value.split(sep, 1)` for a non-empty separator string: `some (l, r)`
splits at the first occurrence, `none` means `sep not in value`. -/
def splitOnceSeq (sep : PyStr) : PyStr → Option (PyStr × PyStr)
  | [] => if startsWithSeq sep [] then some ([], []) else none
  | c :: rest =>
    if startsWithSeq sep (c :: rest) then some ([], (c :: rest).drop sep.length)
    else
      match splitOnceSeq sep rest with
      | none => none
      | some (l, r) => some (c :: l, r)

/-- Python `sep in value` for a string `sep`. -/
def containsSeq (sep : PyStr) (s : PyStr) : Bool := (splitOnceSeq sep s).isSome

/-- Python `sep.join(xs)`. -/
def joinSep (sep : PyStr) : List PyStr → PyStr
  | [] => []
  | [x] => x
  | x :: xs => x ++ sep ++ joinSep sep xs

/-- Python `value.split()` (no argument): split on whitespace runs,
discarding empty pieces. -/
def pySplitWS (s : PyStr) : List PyStr :=
  (splitOnP pyIsSpace s).filter (· ≠ [])

/-- Model of Python `str.lower` / `str.casefold` character mapping on the
ASCII and Latin-1 ranges (every cased character reaching these calls in the
claims lies in this range; `lower` and `casefold` agree there). -/
def pyLower (c : Char) : Char :=
  if 'A' ≤ c ∧ c ≤ 'Z' then Char.ofNat (c.toNat + 32)
  else if 0xC0 ≤ c.toNat ∧ c.toNat ≤ 0xDE ∧ c.toNat ≠ 0xD7 then Char.ofNat (c.toNat + 32)
  else c

/-- Python `text.splitlines()`: split at line boundaries, treating
`\r\n` as one boundary; a trailing boundary produces no final empty line.
(The rarer Unicode line boundaries also recognised by Python do not occur in
the claims and are not modelled.) -/
def splitLinesPy : PyStr → List PyStr
  | [] => []
  | '\r' :: '\n' :: rest => [] :: splitLinesPy rest
  | '\n' :: rest => [] :: splitLinesPy rest
  | '\r' :: rest => [] :: splitLinesPy rest
  | c :: rest =>
    match splitLinesPy rest with
    | [] => [[c]]
    | p :: ps => (c :: p) :: ps

/-! ## `backend/app/parsing.py` -/

/-- `ARABIC_RE`: membership in the Arabic code-point ranges
`[؀-ۿݐ-ݿࢠ-ࣿﭐ-﷿ﹰ-﻿]`. -/
def isArabicChar (c : Char) : Bool :=
  (0x0600 ≤ c.toNat && c.toNat ≤ 0x06FF) ||
  (0x0750 ≤ c.toNat && c.toNat ≤ 0x077F) ||
  (0x08A0 ≤ c.toNat && c.toNat ≤ 0x08FF) ||
  (0xFB50 ≤ c.toNat && c.toNat ≤ 0xFDFF) ||
  (0xFE70 ≤ c.toNat && c.toNat ≤ 0xFEFF)

/-- `LATIN_RE`: membership in `[A-Za-z]`. -/
def isLatinChar (c : Char) : Bool :=
  ('A' ≤ c && c ≤ 'Z') || ('a' ≤ c && c ≤ 'z')

/-- `_has_arabic`. -/
def has_arabic (s : PyStr) : Bool := s.any isArabicChar

/-- `_has_latin`. -/
def has_latin (s : PyStr) : Bool := s.any isLatinChar

/-- The edge characters stripped by `_clean_segment`. -/
def segmentStripChars : List Char := ['-', '–', '—', '/', '|', ':', '•']

/-- `_clean_segment`: `value.strip().strip("-–—/|:•").strip()`. -/
def clean_segment (s : PyStr) : PyStr :=
  pyStrip (pyStripChars segmentStripChars (pyStrip s))

/-- `TAG_SPLIT_RE`: a Latin or Arabic comma. -/
def isTagComma (c : Char) : Bool := c == ',' || c == '،'

/-- `_split_tags`: split on commas, clean each piece, keep the non-empty ones. -/
def split_tags (value : PyStr) : List PyStr :=
  if value = [] then []
  else ((splitOnP isTagComma value).map clean_segment).filter (· ≠ [])

/-- `_merge_tag_lines`. -/
def merge_tag_lines (primary_line : PyStr) (continuation_lines : List PyStr) : PyStr :=
  let primary_tags := split_tags primary_line
  let extra_tags := split_tags (joinSep (pystr ", ") continuation_lines)
  if continuation_lines = [] then joinSep (pystr ", ") primary_tags
  else if primary_tags = [] then joinSep (pystr ", ") extra_tags
  else if extra_tags = [] then joinSep (pystr ", ") primary_tags
  else
    let primary_latin_only :=
      primary_tags.countP (fun tag => has_latin tag ∧ ¬ has_arabic tag)
    let extra_arabic_only :=
      extra_tags.countP (fun tag => has_arabic tag ∧ ¬ has_latin tag)
    if primary_latin_only ≥ max 1 (primary_tags.length / 2) ∧
        extra_arabic_only ≥ max 1 (extra_tags.length / 2) then
      let pair_count := min primary_tags.length extra_tags.length
      let paired :=
        (List.zipWith (fun a b => a ++ pystr " / " ++ b) primary_tags extra_tags)
          ++ primary_tags.drop pair_count ++ extra_tags.drop pair_count
      joinSep (pystr ", ") paired
    else joinSep (pystr ", ") (primary_tags ++ extra_tags)

/-- `SEPARATORS`, in source order. -/
def SEPARATORS : List PyStr :=
  [pystr " - ", pystr " – ", pystr " — ", pystr " / ", pystr " • ",
   pystr " /", pystr "/ ", pystr " | ", pystr "|"]

/-- The separator loop of `_split_bilingual_name`: try each separator in
order; split once; skip it when a side is blank or both sides have the same
script; otherwise the Arabic side becomes the Arabic name. -/
def trySeparators : List PyStr → PyStr → Option (PyStr × PyStr)
  | [], _ => none
  | sep :: rest, value =>
    match splitOnceSeq sep value with
    | none => trySeparators rest value
    | some (l, r) =>
      let left := pyStrip l
      let right := pyStrip r
      if left = [] ∨ right = [] then trySeparators rest value
      else if (has_arabic left) ≠ (has_arabic right) then
        if has_arabic right then some (clean_segment left, clean_segment right)
        else some (clean_segment right, clean_segment left)
      else trySeparators rest value

/-- The script-driven positional fallback of `_split_bilingual_name`
(the part after the separator loop). -/
def splitNameFallback (value : PyStr) : PyStr × PyStr :=
  if ¬ has_arabic value then (clean_segment value, [])
  else if ¬ has_latin value then ([], clean_segment value)
  else
    match value.findIdx? isArabicChar, value.findIdx? isLatinChar with
    | some fa, some fl =>
      if fl < fa then (clean_segment (value.take fa), clean_segment (value.drop fa))
      else (clean_segment (value.drop fl), clean_segment (value.take fl))
    | _, _ => (clean_segment value, [])

/-- `_split_bilingual_name`: returns `(english, arabic)`. -/
def split_bilingual_name (value0 : PyStr) : PyStr × PyStr :=
  let value := joinSep [' '] (pySplitWS value0)
  if value = [] then ([], [])
  else
    match splitOnceSeq ['|'] value with
    | some (l, r) =>
      let left := pyStrip l
      let right := pyStrip r
      if left ≠ [] ∧ right ≠ [] then (left, right)
      else
        match trySeparators SEPARATORS value with
        | some res => res
        | none => splitNameFallback value
    | none =>
      match trySeparators SEPARATORS value with
      | some res => res
      | none => splitNameFallback value

/-- The label tested with `line.lower().startswith("asset name:")`. -/
def assetLabel : PyStr := pystr "asset name:"

/-- The label tested with `line.lower().startswith("tags:")`. -/
def tagsLabel : PyStr := pystr "tags:"

/-- Does a (already stripped) line carry the `"asset name:"` label? -/
def isAssetLine (l : PyStr) : Bool := startsWithSeq assetLabel (l.map pyLower)

/-- Does a line carry the `"tags:"` label? -/
def isTagsLine (l : PyStr) : Bool := startsWithSeq tagsLabel (l.map pyLower)

/-- The non-empty stripped lines of the input text
(`[line.strip() for line in text.splitlines() if line.strip()]`). -/
def pyLines (text : PyStr) : List PyStr :=
  ((splitLinesPy text).map pyStrip).filter (· ≠ [])

/-- The label scan of `parse_metadata`: one pass with `enumerate`, each
matching label overwriting the previous match; returns the final
`(asset_line, tags_line, tags_line_index)` (the `-1` sentinel is `none`). -/
def scanLabels : List PyStr → Nat → PyStr → PyStr → Option Nat →
    PyStr × PyStr × Option Nat
  | [], _, a, t, ti => (a, t, ti)
  | l :: rest, i, a, t, ti =>
    if isAssetLine l then scanLabels rest (i + 1) l t ti
    else if isTagsLine l then scanLabels rest (i + 1) a l (some i)
    else scanLabels rest (i + 1) a t ti

/-- `line.split(":", 1)[1].strip() if ":" in line else ""`. -/
def valueAfterColon (line : PyStr) : PyStr :=
  match splitOnceSeq [':'] line with
  | some (_, r) => pyStrip r
  | none => []

/-- The continuation-line collection after the tags line: absorb lines while
each is not a new label and either contains a comma (Latin or Arabic) or is
Arabic text with no Latin letters; stop at the first other line. -/
def collectContinuations : List PyStr → List PyStr
  | [] => []
  | l :: rest =>
    if isAssetLine l ∨ isTagsLine l then []
    else if l.contains ',' ∨ l.contains '،' then l :: collectContinuations rest
    else if has_arabic l ∧ ¬ has_latin l then l :: collectContinuations rest
    else []

/-- Index of the first element satisfying `p` (the first-index search loop of the Arabic-name recovery). -/
def firstIdxWith (p : PyStr → Bool) : List PyStr → Option Nat
  | [] => none
  | l :: rest => if p l then some 0 else (firstIdxWith p rest).map (· + 1)

/-- The field-extraction stage of `parse_metadata` (everything before the
final `_split_bilingual_name` call): returns `(asset_value, tags_value)`. -/
def extract_fields (text : PyStr) : PyStr × PyStr :=
  let lines := pyLines text
  let scanned := scanLabels lines 0 [] [] none
  let asset_value := valueAfterColon scanned.1
  let tags_value0 := valueAfterColon scanned.2.1
  let continuation_lines :=
    match scanned.2.2 with
    | some ti => collectContinuations (lines.drop (ti + 1))
    | none => []
  let tags_value := merge_tag_lines tags_value0 continuation_lines
  let asset_value :=
    if asset_value ≠ [] ∧ ¬ has_arabic asset_value then
      match firstIdxWith isAssetLine lines with
      | some ai =>
        match lines[ai + 1]? with
        | some next_line =>
          if has_arabic next_line ∧ ¬ isTagsLine next_line then
            asset_value ++ pystr " / " ++ next_line
          else asset_value
        | none => asset_value
      | none => asset_value
    else asset_value
  (asset_value, tags_value)

/-- `parse_metadata`: returns `(english, arabic, tags)`. -/
def parse_metadata (text : PyStr) : PyStr × PyStr × PyStr :=
  let fields := extract_fields text
  let split := split_bilingual_name fields.1
  (split.1, split.2, fields.2)

/-! ## `backend/app/processors.py` -/

/-- The explicit Latin test of `_summarize_tags`
(`("A" <= ch <= "Z") or ("a" <= ch <= "z")`). -/
def summarizeLatinChar (ch : Char) : Bool :=
  ('A' ≤ ch && ch ≤ 'Z') || ('a' ≤ ch && ch ≤ 'z')

/-- The stripped, non-empty comma-separated tags of a tag string
(`[tag.strip() for tag in tags.split(",") if tag.strip()]`). -/
def strippedTagList (tags : PyStr) : List PyStr :=
  ((splitOnP (· == ',') tags).map pyStrip).filter (· ≠ [])

/-- `_summarize_tags`: `(total, tags with Arabic, tags with a Latin letter)`. -/
def summarize_tags (tags : PyStr) : Nat × Nat × Nat :=
  let tag_list := strippedTagList tags
  (tag_list.length,
   tag_list.countP (fun tag => has_arabic tag),
   tag_list.countP (fun tag => tag.any summarizeLatinChar))

/-- `_needs_rewrite` — the Quality Gate.  `int(total * 0.25)` is modelled as
`total / 4` on `Nat`: the product `total * 0.25` is exact in binary floating
point for every realistic list length, so `int` truncation is flooring. -/
def needs_rewrite (arabic_name : PyStr) (tags : PyStr) : Bool :=
  if ¬ has_arabic arabic_name then true
  else
    let s := summarize_tags tags
    let total := s.1
    let arabic_count := s.2.1
    let latin_count := s.2.2
    if total = 0 then true
    else if total > 80 then true
    else
      let min_per_language := max 1 (total / 4)
      arabic_count < min_per_language ∨ latin_count < min_per_language

/-- The inner loop of `_normalize_tag_format`: expand each `english / arabic`
token into two tokens when both sides are non-blank. -/
def normalizeTagsGo : List PyStr → List PyStr
  | [] => []
  | raw_tag :: rest =>
    let tag := pyStrip raw_tag
    if tag = [] then normalizeTagsGo rest
    else
      match splitOnceSeq ['/'] tag with
      | some (l, r) =>
        if pyStrip l ≠ [] ∧ pyStrip r ≠ [] then
          pyStrip l :: pyStrip r :: normalizeTagsGo rest
        else tag :: normalizeTagsGo rest
      | none => tag :: normalizeTagsGo rest

/-- `_normalize_tag_format`. -/
def normalize_tag_format (tags : PyStr) : PyStr :=
  if tags = [] then []
  else joinSep (pystr ", ") (normalizeTagsGo (splitOnP (· == ',') tags))

/-- The deduplication loop of the tag clean-up in `process_assets`:
keep the first occurrence of each `tag.lower().strip()` key. -/
def dedupTagsGo : List PyStr → List PyStr → List PyStr
  | [], _ => []
  | tag :: rest, seen =>
    let tag_lower := pyStrip (tag.map pyLower)
    if seen.contains tag_lower then dedupTagsGo rest seen
    else tag :: dedupTagsGo rest (tag_lower :: seen)

/-- The tags list produced by the clean-up block of `process_assets`
(`unique_tags[:40]`); empty when the tag string is empty. -/
def final_tags_list (tags : PyStr) : List PyStr :=
  if tags = [] then []
  else (dedupTagsGo (strippedTagList tags) []).take 40

/-- The tag clean-up of `process_assets` as a string-to-string step:
split, deduplicate case-insensitively, cap at 40, re-join. -/
def cleanup_tags (tags : PyStr) : PyStr :=
  if tags = [] then tags
  else joinSep (pystr ", ") (final_tags_list tags)

/-- The per-asset tag pipeline applied by `process_assets` to a parsed tag
string: `_normalize_tag_format` followed by the duplicate/cap clean-up. -/
def tag_pipeline (tags : PyStr) : PyStr :=
  cleanup_tags (normalize_tag_format tags)

/-! ## `backend/app/dedup.py` -/

/-- Model of `unicodedata.normalize("NFKC", ·)`, applied character-wise.
Every character that reaches `_normalize_key` in the claims (ASCII, Latin-1
letters such as the composed é, the em dash, and the Arabic letters of the
letter map) is NFKC-invariant, so the model is the identity map. -/
def nfkcChar (c : Char) : PyStr := [c]

/-- `ARABIC_LETTER_MAP`: fold hamza-bearing alef forms and alef wasla to bare
alef, alef maksura and hamza-bearing yeh to yeh, hamza-bearing waw to waw,
teh marbuta to heh, and delete tatweel. -/
def arabicLetterFold (c : Char) : PyStr :=
  if c = 'آ' ∨ c = 'أ' ∨ c = 'إ' ∨ c = 'ٱ' then ['ا']
  else if c = 'ى' ∨ c = 'ئ' then ['ي']
  else if c = 'ؤ' then ['و']
  else if c = 'ة' then ['ه']
  else if c = 'ـ' then []
  else [c]

/-- `ARABIC_DIGITS_MAP`: fold Arabic-Indic and Extended-Arabic-Indic digits
to ASCII digits. -/
def arabicDigitFold (c : Char) : Char :=
  if 0x0660 ≤ c.toNat ∧ c.toNat ≤ 0x0669 then Char.ofNat (c.toNat - 0x0660 + 48)
  else if 0x06F0 ≤ c.toNat ∧ c.toNat ≤ 0x06F9 then Char.ofNat (c.toNat - 0x06F0 + 48)
  else c

/-- The three-way decision taken per character by `_normalize_key` from
`unicodedata.category`: `skip` for marks and format controls (Mn/Me/Cf),
`keep` for letters and numbers (L*/N*), `blank` for everything else
(whitespace, punctuation, symbols — the code maps all of them to a space). -/
inductive KeyClass where
  | skip | keep | blank
deriving DecidableEq

/-- Model of the `unicodedata.category` buckets used by `_normalize_key`,
by code-point range: combining marks and format controls of the Latin and
Arabic blocks are `skip`; ASCII/Latin-1/Latin-Extended letters and digits and
Arabic-block letters and digits are `keep`; all remaining characters are
`blank` (the code sends both whitespace and other categories to a space). -/
def keyClass (c : Char) : KeyClass :=
  let n := c.toNat
  if (0x0300 ≤ n ∧ n ≤ 0x036F) ∨ (0x0610 ≤ n ∧ n ≤ 0x061A) ∨
     (0x064B ≤ n ∧ n ≤ 0x065F) ∨ n = 0x0670 ∨
     (0x06D6 ≤ n ∧ n ≤ 0x06DC) ∨ (0x06DF ≤ n ∧ n ≤ 0x06E4) ∨
     n = 0x06E7 ∨ n = 0x06E8 ∨ (0x06EA ≤ n ∧ n ≤ 0x06ED) ∨
     n = 0x00AD ∨ n = 0x061C ∨ (0x200B ≤ n ∧ n ≤ 0x200F) ∨
     (0x202A ≤ n ∧ n ≤ 0x202E) ∨ (0x2060 ≤ n ∧ n ≤ 0x2064) ∨ n = 0xFEFF then
    KeyClass.skip
  else if ('A' ≤ c ∧ c ≤ 'Z') ∨ ('a' ≤ c ∧ c ≤ 'z') ∨ ('0' ≤ c ∧ c ≤ '9') ∨
     n = 0x00AA ∨ n = 0x00B2 ∨ n = 0x00B3 ∨ n = 0x00B5 ∨ n = 0x00B9 ∨
     n = 0x00BA ∨ (0x00BC ≤ n ∧ n ≤ 0x00BE) ∨
     (0x00C0 ≤ n ∧ n ≤ 0x00D6) ∨ (0x00D8 ≤ n ∧ n ≤ 0x00F6) ∨
     (0x00F8 ≤ n ∧ n ≤ 0x024F) ∨
     (0x0620 ≤ n ∧ n ≤ 0x064A) ∨ (0x0660 ≤ n ∧ n ≤ 0x0669) ∨
     (0x066E ≤ n ∧ n ≤ 0x066F) ∨ (0x0671 ≤ n ∧ n ≤ 0x06D3) ∨ n = 0x06D5 ∨
     n = 0x06E5 ∨ n = 0x06E6 ∨ (0x06EE ≤ n ∧ n ≤ 0x06FC) ∨ n = 0x06FF ∨
     (0x0750 ≤ n ∧ n ≤ 0x077F) ∨ (0x08A0 ≤ n ∧ n ≤ 0x08C7) then
    KeyClass.keep
  else KeyClass.blank

/-- `_normalize_key` — the Canonicalization Key Builder. -/
def normalize_key (value : PyStr) : PyStr :=
  let v := value.flatMap nfkcChar
  let v := v.flatMap arabicLetterFold
  let v := v.map arabicDigitFold
  let v := v.map pyLower
  let normalized_chars :=
    v.foldr
      (fun c acc =>
        match keyClass c with
        | KeyClass.skip => acc
        | KeyClass.keep => c :: acc
        | KeyClass.blank => ' ' :: acc)
      []
  pyStrip (joinSep [' '] (pySplitWS normalized_chars))

/-- `_clean_base`: `" ".join(value.split()).strip()`. -/
def clean_base (value : PyStr) : PyStr :=
  pyStrip (joinSep [' '] (pySplitWS value))

/-- The characters `'0'`–`'9'`. -/
def digitChar (d : Nat) : Char :=
  match d with
  | 0 => '0' | 1 => '1' | 2 => '2' | 3 => '3' | 4 => '4'
  | 5 => '5' | 6 => '6' | 7 => '7' | 8 => '8' | 9 => '9'
  | _ => '*'

/-- The decimal digits of `n`, most significant first (empty for `0`),
computed structurally on a fuel argument so that the kernel can evaluate. -/
def decimalDigitsAux : Nat → Nat → PyStr
  | _, 0 => []
  | 0, _ + 1 => []
  | fuel + 1, n + 1 =>
    decimalDigitsAux fuel ((n + 1) / 10) ++ [digitChar ((n + 1) % 10)]

def decimalDigits (n : Nat) : PyStr := decimalDigitsAux n n

/-- Python `f"{n:03d}"`: the decimal form of `n`, zero-padded to width 3. -/
def pad3 (n : Nat) : PyStr :=
  List.replicate (3 - (decimalDigits n).length) '0' ++ decimalDigits n

/-- The appended duplicate suffix `f" - {n:03d}"`. -/
def dupSuffix (n : Nat) : PyStr := ' ' :: '-' :: ' ' :: pad3 n

/-- The occurrence counts of `_apply_suffixes`: empty keys are skipped when
the counts dictionary is built, so they read back as 0. -/
def keyCounts (keys : List PyStr) (k : PyStr) : Nat :=
  if k = [] then 0 else keys.count k

/-- The suffixing loop of `_apply_suffixes`: `seen` is the per-key running
index of already-suffixed names. -/
def applySuffixesGo (counts : PyStr → Nat) :
    List (PyStr × PyStr) → (PyStr → Nat) → List PyStr
  | [], _ => []
  | (original, key) :: rest, seen =>
    let base := clean_base original
    if base = [] ∨ counts key ≤ 1 then base :: applySuffixesGo counts rest seen
    else
      let n := seen key + 1
      (base ++ dupSuffix n) ::
        applySuffixesGo counts rest (fun k => if k = key then n else seen k)

/-- `_apply_suffixes`. -/
def apply_suffixes (names : List PyStr) : List PyStr :=
  let keys := names.map normalize_key
  applySuffixesGo (keyCounts keys) (names.zip keys) (fun _ => 0)

/-- `AssetResult` (`backend/app/models.py`). -/
structure AssetResult where
  task_id : PyStr
  display_name : PyStr
  english_name : PyStr
  arabic_name : PyStr
  tags : PyStr
  raw_text : PyStr
deriving DecidableEq, Repr

/-- `apply_duplicate_suffixes`: suffix the English and the Arabic name lists
independently and write them back (`dataclasses.replace`). -/
def apply_duplicate_suffixes (results : List AssetResult) : List AssetResult :=
  let updated_english := apply_suffixes (results.map (·.english_name))
  let updated_arabic := apply_suffixes (results.map (·.arabic_name))
  (results.zip (updated_english.zip updated_arabic)).map
    (fun p => { p.1 with english_name := p.2.1, arabic_name := p.2.2 })

/-! ## Generic lemmas about the string primitives -/

theorem dropWhile_eq_self_of_head (p : Char → Bool) :
    ∀ s : PyStr, (∀ h ∈ s.head?, ¬ p h) → s.dropWhile p = s := by
  intro s h
  cases s with
  | nil => rfl
  | cons c t =>
    have : ¬ p c := h c rfl
    simp [List.dropWhile_cons, this]

theorem pyStrip_sub_no_space :
    ∀ s : PyStr, (∀ c ∈ s, ¬ pyIsSpace c) → s.dropWhile pyIsSpace = s := by
  intro s h
  cases s with
  | nil => rfl
  | cons c t => simp [List.dropWhile_cons, h c (by simp)]

theorem pyStrip_eq_self_of_no_space (s : PyStr) (h : ∀ c ∈ s, ¬ pyIsSpace c) :
    pyStrip s = s := by
  unfold pyStrip
  rw [pyStrip_sub_no_space s h, pyStrip_sub_no_space s.reverse, List.reverse_reverse]
  intro c hc
  exact h c (List.mem_reverse.mp hc)

theorem pyStrip_nil : pyStrip [] = [] := rfl

theorem pyStrip_cons_space (c : Char) (s : PyStr) (h : pyIsSpace c) :
    pyStrip (c :: s) = pyStrip s := by
  unfold pyStrip
  simp [List.dropWhile_cons, h]


theorem pyStrip_eq_nil_iff (s : PyStr) :
    pyStrip s = [] ↔ ∀ c ∈ s, pyIsSpace c := by
  unfold pyStrip
  rw [List.reverse_eq_nil_iff, List.dropWhile_eq_nil_iff]
  constructor
  · intro h c hc
    rcases List.mem_append.mp
        ((List.takeWhile_append_dropWhile (p := pyIsSpace) (l := s)) ▸ hc) with h1 | h1
    · exact List.mem_takeWhile_imp h1
    · exact h c (List.mem_reverse.mpr h1)
  · intro h c hc
    exact h c ((List.dropWhile_sublist pyIsSpace).mem (List.mem_reverse.mp hc))


theorem splitOnP_cons (p : Char → Bool) (a : Char) (t : PyStr) :
    splitOnP p (a :: t) =
      if p a then [] :: splitOnP p t
      else
        match splitOnP p t with
        | [] => [[a]]
        | piece :: more => (a :: piece) :: more := rfl

theorem splitOnP_cons_neg (p : Char → Bool) (a : Char) (t : PyStr) (ha : ¬ p a) :
    splitOnP p (a :: t) = (a :: (splitOnP p t).headD []) :: (splitOnP p t).tail := by
  rw [splitOnP_cons, if_neg (by simpa using ha)]
  rcases h : splitOnP p t with _ | ⟨piece, more⟩ <;> simp

theorem splitOnP_ne_nil (p : Char → Bool) (s : PyStr) : splitOnP p s ≠ [] := by
  cases s with
  | nil => simp [splitOnP]
  | cons c t =>
    by_cases hc : p c
    · simp [splitOnP, hc]
    · rw [splitOnP_cons_neg p c t hc]; simp

theorem mem_splitOnP_no_sep (p : Char → Bool) :
    ∀ s : PyStr, ∀ piece ∈ splitOnP p s, ∀ c ∈ piece, ¬ p c := by
  intro s
  induction s with
  | nil => intro piece hp c hc; simp [splitOnP] at hp; simp [hp] at hc
  | cons a t ih =>
    intro piece hp c hc
    by_cases ha : p a
    · rw [show splitOnP p (a :: t) = [] :: splitOnP p t from by simp [splitOnP, ha]] at hp
      rcases List.mem_cons.mp hp with h1 | h1
      · simp [h1] at hc
      · exact ih piece h1 c hc
    · rw [splitOnP_cons_neg p a t ha] at hp
      rcases List.mem_cons.mp hp with h1 | h1
      · subst h1
        rcases List.mem_cons.mp hc with h2 | h2
        · subst h2; simpa using ha
        · rcases hrec : splitOnP p t with _ | ⟨piece0, more⟩
          · exact absurd hrec (splitOnP_ne_nil p t)
          · rw [hrec] at h2
            simp only [List.headD_cons] at h2
            exact ih piece0 (by rw [hrec]; simp) c h2
      · rcases hrec : splitOnP p t with _ | ⟨piece0, more⟩
        · exact absurd hrec (splitOnP_ne_nil p t)
        · rw [hrec] at h1
          simp only [List.tail_cons] at h1
          exact ih piece (by rw [hrec]; simp [h1]) c hc

theorem splitOnP_of_no_sep (p : Char → Bool) :
    ∀ s : PyStr, (∀ c ∈ s, ¬ p c) → splitOnP p s = [s] := by
  intro s
  induction s with
  | nil => intro _; rfl
  | cons a t ih =>
    intro h
    rw [splitOnP_cons_neg p a t (h a (by simp)), ih (fun c hc => h c (by simp [hc]))]
    simp

theorem splitOnP_append_sep (p : Char → Bool) (sc : Char) (hsc : p sc) :
    ∀ w t : PyStr, (∀ c ∈ w, ¬ p c) →
      splitOnP p (w ++ sc :: t) = w :: splitOnP p t := by
  intro w
  induction w with
  | nil => intro t _; simp [splitOnP, hsc]
  | cons a w' ih =>
    intro t h
    rw [List.cons_append, splitOnP_cons_neg p a _ (h a (by simp)),
      ih t (fun c hc => h c (by simp [hc]))]
    simp

theorem joinSep_cons_of_ne_nil (sep : PyStr) (x : PyStr) (xs : List PyStr) (h : xs ≠ []) :
    joinSep sep (x :: xs) = x ++ sep ++ joinSep sep xs := by
  cases xs with
  | nil => exact absurd rfl h
  | cons y t => rfl

theorem joinSep_append (sep : PyStr) :
    ∀ ws1 ws2 : List PyStr, ws1 ≠ [] → ws2 ≠ [] →
      joinSep sep (ws1 ++ ws2) = joinSep sep ws1 ++ sep ++ joinSep sep ws2 := by
  intro ws1
  induction ws1 with
  | nil => intro ws2 h1 _; exact absurd rfl h1
  | cons x t ih =>
    intro ws2 _ h2
    cases t with
    | nil => simpa using joinSep_cons_of_ne_nil sep x ws2 h2
    | cons y t' =>
      rw [List.cons_append,
        joinSep_cons_of_ne_nil sep x ((y :: t') ++ ws2) (by simp),
        ih ws2 (by simp) h2, joinSep_cons_of_ne_nil sep x (y :: t') (by simp)]
      simp [List.append_assoc]

theorem mem_pySplitWS (s : PyStr) (w : PyStr) (hw : w ∈ pySplitWS s) :
    w ≠ [] ∧ ∀ c ∈ w, ¬ pyIsSpace c := by
  unfold pySplitWS at hw
  have h1 := List.of_mem_filter hw
  refine ⟨by simpa using h1, ?_⟩
  exact mem_splitOnP_no_sep pyIsSpace s w (List.mem_of_mem_filter hw)

theorem pySplitWS_eq_nil_iff (s : PyStr) :
    pySplitWS s = [] ↔ ∀ c ∈ s, pyIsSpace c := by
  induction s with
  | nil => simp [pySplitWS, splitOnP]
  | cons a t ih =>
    by_cases ha : pyIsSpace a
    · unfold pySplitWS
      rw [show splitOnP pyIsSpace (a :: t) = [] :: splitOnP pyIsSpace t from by
            rw [splitOnP_cons]; simp [ha],
        List.filter_cons]
      simp only [show ¬ (([] : PyStr) ≠ []) from by simp, decide_False]
      constructor
      · intro h c hc
        rcases List.mem_cons.mp hc with h1 | h1
        · subst h1; exact ha
        · exact (ih.mp (by simpa [pySplitWS] using h)) c h1
      · intro h
        simpa [pySplitWS] using ih.mpr (fun c hc => h c (by simp [hc]))
    · constructor
      · intro h
        exfalso
        unfold pySplitWS at h
        rw [splitOnP_cons_neg pyIsSpace a t ha, List.filter_cons] at h
        simp at h
      · intro h
        exact absurd (h a (by simp)) ha

theorem words_join :
    ∀ ws : List PyStr, (∀ w ∈ ws, w ≠ [] ∧ ∀ c ∈ w, ¬ pyIsSpace c) →
      pySplitWS (joinSep [' '] ws) = ws := by
  intro ws
  induction ws with
  | nil =>
    intro _
    simp [joinSep, pySplitWS, splitOnP]
  | cons w t ih =>
    intro h
    obtain ⟨hw, hwc⟩ := h w (by simp)
    cases t with
    | nil =>
      show pySplitWS (joinSep [' '] [w]) = [w]
      unfold pySplitWS
      rw [show joinSep [' '] [w] = w from rfl, splitOnP_of_no_sep pyIsSpace w hwc]
      simp [hw]
    | cons y t' =>
      rw [joinSep_cons_of_ne_nil [' '] w (y :: t') (by simp)]
      unfold pySplitWS
      rw [List.append_assoc, show ([' '] ++ joinSep [' '] (y :: t'))
            = ' ' :: joinSep [' '] (y :: t') from rfl,
        splitOnP_append_sep pyIsSpace ' ' (by decide) w _ hwc]
      rw [List.filter_cons]
      simp only [hw, ne_eq, not_false_iff, decide_True]
      have := ih (fun x hx => h x (by simp [hx]))
      unfold pySplitWS at this
      rw [this]
      simp

theorem joinSep_reverse (sep : PyStr) (hsep : sep.reverse = sep) :
    ∀ ws : List PyStr,
      (joinSep sep ws).reverse = joinSep sep (ws.reverse.map List.reverse) := by
  intro ws
  induction ws with
  | nil => rfl
  | cons w t ih =>
    cases t with
    | nil => simp [joinSep]
    | cons y t' =>
      have h1 : (w :: y :: t').reverse.map List.reverse
          = ((y :: t').reverse.map List.reverse) ++ [w.reverse] := by simp
      rw [joinSep_cons_of_ne_nil sep w (y :: t') (by simp), h1,
        joinSep_append sep ((y :: t').reverse.map List.reverse) [w.reverse]
          (by simp) (by simp), ← ih]
      simp [List.reverse_append, hsep, List.append_assoc, joinSep]

/-- The words of a word list are unchanged by reversing each word. -/
theorem words_clean_reverse (ws : List PyStr)
    (h : ∀ w ∈ ws, w ≠ [] ∧ ∀ c ∈ w, ¬ pyIsSpace c) :
    ∀ w ∈ ws.reverse.map List.reverse, w ≠ [] ∧ ∀ c ∈ w, ¬ pyIsSpace c := by
  intro w hw
  rw [List.mem_map] at hw
  obtain ⟨w0, hw0, rfl⟩ := hw
  obtain ⟨h1, h2⟩ := h w0 (List.mem_reverse.mp hw0)
  exact ⟨by simpa using h1, fun c hc => h2 c (List.mem_reverse.mp hc)⟩

theorem dropWhile_joinSep_words (ws : List PyStr)
    (h : ∀ w ∈ ws, w ≠ [] ∧ ∀ c ∈ w, ¬ pyIsSpace c) :
    (joinSep [' '] ws).dropWhile pyIsSpace = joinSep [' '] ws := by
  cases ws with
  | nil => rfl
  | cons w t =>
    obtain ⟨hw, hwc⟩ := h w (by simp)
    obtain ⟨c, w', rfl⟩ : ∃ c w', w = c :: w' := by
      cases w with
      | nil => exact absurd rfl hw
      | cons c w' => exact ⟨c, w', rfl⟩
    have hc : ¬ pyIsSpace c := hwc c (by simp)
    cases t with
    | nil =>
      show (c :: w').dropWhile pyIsSpace = c :: w'
      simp [List.dropWhile_cons, hc]
    | cons y t' =>
      rw [joinSep_cons_of_ne_nil [' '] (c :: w') (y :: t') (by simp)]
      simp [List.cons_append, List.dropWhile_cons, hc]

theorem pyStrip_joinSep_words (ws : List PyStr)
    (h : ∀ w ∈ ws, w ≠ [] ∧ ∀ c ∈ w, ¬ pyIsSpace c) :
    pyStrip (joinSep [' '] ws) = joinSep [' '] ws := by
  unfold pyStrip
  rw [dropWhile_joinSep_words ws h,
    joinSep_reverse [' '] (by rfl) ws,
    dropWhile_joinSep_words _ (words_clean_reverse ws h),
    ← joinSep_reverse [' '] (by rfl) ws, List.reverse_reverse]

theorem clean_base_eq_join (v : PyStr) :
    clean_base v = joinSep [' '] (pySplitWS v) := by
  unfold clean_base
  exact pyStrip_joinSep_words (pySplitWS v) (fun w hw => mem_pySplitWS v w hw)

theorem joinSep_words_eq_nil_iff (ws : List PyStr)
    (h : ∀ w ∈ ws, w ≠ [] ∧ ∀ c ∈ w, ¬ pyIsSpace c) :
    joinSep [' '] ws = [] ↔ ws = [] := by
  cases ws with
  | nil => simp [joinSep]
  | cons w t =>
    obtain ⟨hw, _⟩ := h w (by simp)
    cases t with
    | nil => simpa [joinSep] using hw
    | cons y t' =>
      rw [joinSep_cons_of_ne_nil [' '] w (y :: t') (by simp)]
      simp [hw]

theorem clean_base_eq_nil_iff (v : PyStr) :
    clean_base v = [] ↔ ∀ c ∈ v, pyIsSpace c := by
  rw [clean_base_eq_join,
    joinSep_words_eq_nil_iff (pySplitWS v) (fun w hw => mem_pySplitWS v w hw),
    pySplitWS_eq_nil_iff]

theorem words_clean_base (v : PyStr) :
    pySplitWS (clean_base v) = pySplitWS v := by
  rw [clean_base_eq_join]
  exact words_join (pySplitWS v) (fun w hw => mem_pySplitWS v w hw)

theorem clean_base_idem (v : PyStr) :
    clean_base (clean_base v) = clean_base v := by
  rw [clean_base_eq_join (clean_base v), words_clean_base, ← clean_base_eq_join]

/-- The decimal digit characters. -/
def isDigitChar (c : Char) : Bool := '0' ≤ c && c ≤ '9'

/-- Value of a decimal digit character. -/
def digitVal (c : Char) : Nat := c.toNat - 48

theorem digitChar_is_digit (d : Nat) (h : d < 10) : isDigitChar (digitChar d) = true := by
  interval_cases d <;> decide

theorem digitVal_digitChar (d : Nat) (h : d < 10) : digitVal (digitChar d) = d := by
  interval_cases d <;> decide

theorem not_space_of_digit (c : Char) (h : isDigitChar c = true) : ¬ pyIsSpace c := by
  intro hs
  unfold pyIsSpace at hs
  rw [List.contains_iff_exists_mem_beq] at hs
  obtain ⟨c', hc', hbeq⟩ := hs
  rw [beq_iff_eq] at hbeq
  subst hbeq
  simp only [pySpaceChars, List.mem_cons, List.not_mem_nil, or_false] at hc'
  rcases hc' with h1 | h1 | h1 | h1 | h1 | h1 | h1 | h1 | h1 | h1 | h1 | h1 | h1 | h1 |
    h1 | h1 | h1 | h1 | h1 | h1 | h1 | h1 | h1 | h1 | h1 | h1 | h1 | h1 | h1 <;>
    (subst h1; simp [isDigitChar] at h)

theorem decimalDigitsAux_digits :
    ∀ (fuel n : Nat), ∀ c ∈ decimalDigitsAux fuel n, isDigitChar c = true := by
  intro fuel
  induction fuel with
  | zero =>
    intro n c hc
    cases n <;> simp [decimalDigitsAux] at hc
  | succ fuel ih =>
    intro n c hc
    cases n with
    | zero => simp [decimalDigitsAux] at hc
    | succ m =>
      unfold decimalDigitsAux at hc
      rcases List.mem_append.mp hc with h1 | h1
      · exact ih ((m + 1) / 10) c h1
      · rw [List.mem_singleton.mp h1]
        exact digitChar_is_digit ((m + 1) % 10) (Nat.mod_lt _ (by norm_num))

theorem mem_pad3_digit (n : Nat) : ∀ c ∈ pad3 n, isDigitChar c = true := by
  intro c hc
  unfold pad3 at hc
  rcases List.mem_append.mp hc with h1 | h1
  · rw [List.eq_of_mem_replicate h1]; decide
  · exact decimalDigitsAux_digits n n c h1

/-- Read a digit string back as a number (most significant digit first). -/
def digitsVal (cs : PyStr) : Nat := cs.foldl (fun a c => 10 * a + digitVal c) 0

theorem digitsVal_replicate_zero (k : Nat) (ds : PyStr) :
    digitsVal (List.replicate k '0' ++ ds) = digitsVal ds := by
  unfold digitsVal
  rw [List.foldl_append]
  congr 1
  induction k with
  | zero => rfl
  | succ k ih => rw [List.replicate_succ, List.foldl_cons]; simpa using ih

theorem digitsVal_append_digit (A : PyStr) (c : Char) :
    digitsVal (A ++ [c]) = 10 * digitsVal A + digitVal c := by
  unfold digitsVal
  rw [List.foldl_append]
  rfl

theorem decimalDigitsAux_val :
    ∀ (fuel n : Nat), n ≤ fuel → digitsVal (decimalDigitsAux fuel n) = n := by
  intro fuel
  induction fuel with
  | zero =>
    intro n h
    rw [Nat.le_zero.mp h]
    rfl
  | succ fuel ih =>
    intro n h
    cases n with
    | zero => rfl
    | succ m =>
      unfold decimalDigitsAux
      rw [digitsVal_append_digit,
        ih ((m + 1) / 10) (by
          have := Nat.div_lt_self (Nat.succ_pos m) (show 1 < 10 from by norm_num)
          omega),
        digitVal_digitChar _ (Nat.mod_lt _ (by norm_num))]
      have := Nat.div_add_mod (m + 1) 10
      omega

theorem digitsVal_decimalDigits (n : Nat) : digitsVal (decimalDigits n) = n :=
  decimalDigitsAux_val n n (Nat.le_refl n)

theorem pad3_val (n : Nat) : digitsVal (pad3 n) = n := by
  unfold pad3
  rw [digitsVal_replicate_zero, digitsVal_decimalDigits]

theorem pad3_inj (a b : Nat) (h : pad3 a = pad3 b) : a = b := by
  rw [← pad3_val a, ← pad3_val b, h]

theorem pad3_length (n : Nat) : 3 ≤ (pad3 n).length := by
  unfold pad3
  rw [List.length_append, List.length_replicate]
  omega

theorem dupSuffix_reverse (n : Nat) :
    (dupSuffix n).reverse = (pad3 n).reverse ++ [' ', '-', ' '] := by
  unfold dupSuffix
  simp

/-- Two names formed by appending duplicate suffixes are equal only if the
suffix indices agree: the suffix digits are read off the right end. -/
theorem dupSuffix_append_inj (x y : PyStr) (a b : Nat)
    (h : x ++ dupSuffix a = y ++ dupSuffix b) : a = b := by
  have hrev : (pad3 a).reverse ++ ([' ', '-', ' '] ++ x.reverse)
      = (pad3 b).reverse ++ ([' ', '-', ' '] ++ y.reverse) := by
    have := congrArg List.reverse h
    simpa [dupSuffix, List.append_assoc] using this
  have hdig : ∀ (n : Nat) (c : Char), c ∈ (pad3 n).reverse → isDigitChar c = true :=
    fun n c hc => mem_pad3_digit n c (List.mem_reverse.mp hc)
  rcases Nat.lt_trichotomy (pad3 a).length (pad3 b).length with hlt | heq | hgt
  · exfalso
    have hidx := congrArg (fun l => l[(pad3 a).reverse.length]?) hrev
    simp only at hidx
    rw [List.getElem?_append_right (Nat.le_refl _)] at hidx
    rw [show (pad3 a).reverse.length - (pad3 a).reverse.length = 0 from by omega] at hidx
    rw [List.getElem?_append] at hidx
    rw [if_pos (by simpa using hlt)] at hidx
    simp only [List.getElem?_cons_zero] at hidx
    rw [List.getElem?_append] at hidx
    rw [if_pos (by simpa using hlt)] at hidx
    rcases hc : (pad3 b).reverse[(pad3 a).reverse.length]? with _ | c
    · rw [hc] at hidx; simp at hidx
    · rw [hc] at hidx
      have hmem := List.getElem?_mem hc
      have := hdig b c hmem
      have : isDigitChar ' ' = true := by
        rw [show ' ' = c from by simpa using hidx]; exact this
      simp [isDigitChar] at this
  · have := List.append_inj_left hrev (by simpa using heq)
    exact pad3_inj a b (by simpa using congrArg List.reverse this)
  · exfalso
    have hidx := congrArg (fun l => l[(pad3 b).reverse.length]?) hrev.symm
    simp only at hidx
    rw [List.getElem?_append_right (Nat.le_refl _)] at hidx
    rw [show (pad3 b).reverse.length - (pad3 b).reverse.length = 0 from by omega] at hidx
    rw [List.getElem?_append] at hidx
    rw [if_pos (by simpa using hgt)] at hidx
    simp only [List.getElem?_cons_zero] at hidx
    rw [List.getElem?_append] at hidx
    rw [if_pos (by simpa using hgt)] at hidx
    rcases hc : (pad3 a).reverse[(pad3 b).reverse.length]? with _ | c
    · rw [hc] at hidx; simp at hidx
    · rw [hc] at hidx
      have hmem := List.getElem?_mem hc
      have := hdig a c hmem
      have : isDigitChar ' ' = true := by
        rw [show ' ' = c from by simpa using hidx]; exact this
      simp [isDigitChar] at this

/-- Every whitespace character passes untouched through the folding maps and
is classified `blank` by the key builder. -/
theorem space_char_key_facts (c : Char) (h : pyIsSpace c = true) :
    arabicLetterFold c = [c] ∧ arabicDigitFold c = c ∧ pyLower c = c ∧
      keyClass c = KeyClass.blank := by
  unfold pyIsSpace at h
  rw [List.contains_iff_exists_mem_beq] at h
  obtain ⟨c', hc', hbeq⟩ := h
  rw [beq_iff_eq] at hbeq
  subst hbeq
  simp only [pySpaceChars, List.mem_cons, List.not_mem_nil, or_false] at hc'
  rcases hc' with h1 | h1 | h1 | h1 | h1 | h1 | h1 | h1 | h1 | h1 | h1 | h1 | h1 | h1 |
    h1 | h1 | h1 | h1 | h1 | h1 | h1 | h1 | h1 | h1 | h1 | h1 | h1 | h1 | h1 <;>
    (subst h1; refine ⟨by decide, by decide, by decide, by decide⟩)

theorem normalize_key_def (v : PyStr) :
    normalize_key v = pyStrip (joinSep [' ']
      (pySplitWS ((((v.flatMap nfkcChar).flatMap arabicLetterFold).map
          arabicDigitFold |>.map pyLower).foldr
        (fun c acc =>
          match keyClass c with
          | KeyClass.skip => acc
          | KeyClass.keep => c :: acc
          | KeyClass.blank => ' ' :: acc) []))) := rfl

theorem nfkc_flatMap_id (v : PyStr) : v.flatMap nfkcChar = v := by
  induction v with
  | nil => rfl
  | cons c t ih => rw [List.flatMap_cons, ih]; rfl

theorem map_id_of_mem {α : Type} (f : α → α) :
    ∀ v : List α, (∀ c ∈ v, f c = c) → v.map f = v := by
  intro v
  induction v with
  | nil => intro _; rfl
  | cons c t ih =>
    intro hf
    rw [List.map_cons, hf c (by simp), ih (fun x hx => hf x (by simp [hx]))]

theorem flatMap_id_of_mem (f : Char → PyStr) :
    ∀ v : PyStr, (∀ c ∈ v, f c = [c]) → v.flatMap f = v := by
  intro v
  induction v with
  | nil => intro _; rfl
  | cons c t ih =>
    intro hf
    rw [List.flatMap_cons, hf c (by simp), ih (fun x hx => hf x (by simp [hx]))]
    rfl

/-- The character classification loop of `_normalize_key`. -/
def keyFoldr (v : PyStr) : PyStr :=
  v.foldr
    (fun c acc =>
      match keyClass c with
      | KeyClass.skip => acc
      | KeyClass.keep => c :: acc
      | KeyClass.blank => ' ' :: acc) []

theorem keyFoldr_all_space :
    ∀ v : PyStr, (∀ c ∈ v, pyIsSpace c) → ∀ x ∈ keyFoldr v, pyIsSpace x := by
  intro v
  induction v with
  | nil => intro _ x hx; simp [keyFoldr] at hx
  | cons c t ih =>
    intro h x hx
    unfold keyFoldr at hx
    rw [List.foldr_cons, (space_char_key_facts c (h c (by simp))).2.2.2] at hx
    rcases List.mem_cons.mp hx with h1 | h1
    · subst h1; decide
    · exact ih (fun y hy => h y (by simp [hy])) x h1

theorem normalize_key_eq_keyFoldr (v : PyStr) :
    normalize_key v = pyStrip (joinSep [' '] (pySplitWS
      (keyFoldr (((v.flatMap nfkcChar).flatMap arabicLetterFold).map
          arabicDigitFold |>.map pyLower)))) := rfl

theorem normalize_key_all_space (v : PyStr) (h : ∀ c ∈ v, pyIsSpace c) :
    normalize_key v = [] := by
  rw [normalize_key_eq_keyFoldr, nfkc_flatMap_id,
    flatMap_id_of_mem arabicLetterFold v
      (fun c hc => (space_char_key_facts c (h c hc)).1),
    map_id_of_mem arabicDigitFold v
      (fun c hc => (space_char_key_facts c (h c hc)).2.1),
    map_id_of_mem pyLower v
      (fun c hc => (space_char_key_facts c (h c hc)).2.2.1),
    (pySplitWS_eq_nil_iff _).mpr (keyFoldr_all_space v h)]
  rfl

theorem clean_base_ne_nil_of_key_ne_nil (v : PyStr) (h : normalize_key v ≠ []) :
    clean_base v ≠ [] := by
  intro hb
  exact h (normalize_key_all_space v ((clean_base_eq_nil_iff v).mp hb))

theorem pad3_words_clean (n : Nat) :
    pad3 n ≠ [] ∧ ∀ c ∈ pad3 n, ¬ pyIsSpace c := by
  constructor
  · intro h
    have := pad3_length n
    rw [h] at this
    simp at this
  · intro c hc
    simpa using not_space_of_digit c (mem_pad3_digit n c hc)

theorem clean_base_append_dupSuffix (v : PyStr) (n : Nat) (h : clean_base v ≠ []) :
    clean_base (clean_base v ++ dupSuffix n) = clean_base v ++ dupSuffix n := by
  have hws : pySplitWS v ≠ [] := by
    intro hnil
    exact h (by rw [clean_base_eq_join, hnil]; rfl)
  have hclean : ∀ w ∈ pySplitWS v ++ [['-'], pad3 n],
      w ≠ [] ∧ ∀ c ∈ w, ¬ pyIsSpace c := by
    intro w hw
    rcases List.mem_append.mp hw with h1 | h1
    · exact mem_pySplitWS v w h1
    · rcases List.mem_cons.mp h1 with h2 | h2
      · subst h2; exact ⟨by simp, by intro c hc; simp at hc; subst hc; decide⟩
      · rw [List.mem_singleton.mp h2]; exact pad3_words_clean n
  have hj : clean_base v ++ dupSuffix n
      = joinSep [' '] (pySplitWS v ++ [['-'], pad3 n]) := by
    rw [joinSep_append [' '] _ _ hws (by simp), ← clean_base_eq_join]
    unfold dupSuffix
    rw [show joinSep [' '] [['-'], pad3 n] = '-' :: ' ' :: pad3 n from rfl]
    simp [List.append_assoc]
  rw [hj]
  unfold clean_base
  rw [words_join _ hclean]
  exact pyStrip_joinSep_words _ hclean

theorem count_ge_two_of_two_positions :
    ∀ (l : List PyStr) (i j : Nat) (k : PyStr), i < j → l[i]? = some k → l[j]? = some k →
      2 ≤ l.count k := by
  intro l
  induction l with
  | nil => intro i j k _ h1 _; simp at h1
  | cons x t ih =>
    intro i j k hij h1 h2
    cases j with
    | zero => omega
    | succ j' =>
      rw [List.getElem?_cons_succ] at h2
      cases i with
      | zero =>
        rw [List.getElem?_cons_zero] at h1
        have hx : x = k := by injection h1
        subst hx
        have hmem : x ∈ t := List.getElem?_mem h2
        rw [List.count_cons_self]
        have := List.count_pos_iff.mpr hmem
        omega
      | succ i' =>
        rw [List.getElem?_cons_succ] at h1
        have := ih i' j' k (by omega) h1 h2
        rw [List.count_cons]
        omega

theorem applySuffixesGo_length (counts : PyStr → Nat) :
    ∀ (ps : List (PyStr × PyStr)) (seen : PyStr → Nat),
      (applySuffixesGo counts ps seen).length = ps.length := by
  intro ps
  induction ps with
  | nil => intro seen; rfl
  | cons p rest ih =>
    intro seen
    obtain ⟨o, k⟩ := p
    unfold applySuffixesGo
    by_cases hb : clean_base o = [] ∨ counts k ≤ 1
    · rw [if_pos hb]; simp [ih]
    · rw [if_neg hb]; simp [ih]

theorem applySuffixesGo_get_pass (counts : PyStr → Nat) :
    ∀ (ps : List (PyStr × PyStr)) (seen : PyStr → Nat) (i : Nat) (o k : PyStr),
      ps[i]? = some (o, k) → (clean_base o = [] ∨ counts k ≤ 1) →
      (applySuffixesGo counts ps seen)[i]? = some (clean_base o) := by
  intro ps
  induction ps with
  | nil => intro seen i o k h _; simp at h
  | cons p rest ih =>
    intro seen i o k h hp
    obtain ⟨o', k'⟩ := p
    cases i with
    | zero =>
      rw [List.getElem?_cons_zero] at h
      have : o' = o ∧ k' = k := by
        have := Option.some.inj h
        exact ⟨congrArg Prod.fst this, congrArg Prod.snd this⟩
      obtain ⟨rfl, rfl⟩ := this
      unfold applySuffixesGo
      rw [if_pos hp, List.getElem?_cons_zero]
    | succ i' =>
      rw [List.getElem?_cons_succ] at h
      unfold applySuffixesGo
      by_cases hb : clean_base o' = [] ∨ counts k' ≤ 1
      · rw [if_pos hb, List.getElem?_cons_succ]
        exact ih seen i' o k h hp
      · rw [if_neg hb, List.getElem?_cons_succ]
        exact ih _ i' o k h hp

theorem applySuffixesGo_get_suffix (counts : PyStr → Nat) :
    ∀ (ps : List (PyStr × PyStr)) (seen : PyStr → Nat) (j : Nat) (o k : PyStr),
      ps[j]? = some (o, k) → ¬ (clean_base o = [] ∨ counts k ≤ 1) →
      ∃ b, seen k < b ∧
        (applySuffixesGo counts ps seen)[j]? = some (clean_base o ++ dupSuffix b) := by
  intro ps
  induction ps with
  | nil => intro seen j o k h _; simp at h
  | cons p rest ih =>
    intro seen j o k h hq
    obtain ⟨o', k'⟩ := p
    cases j with
    | zero =>
      rw [List.getElem?_cons_zero] at h
      have : o' = o ∧ k' = k := by
        have := Option.some.inj h
        exact ⟨congrArg Prod.fst this, congrArg Prod.snd this⟩
      obtain ⟨rfl, rfl⟩ := this
      refine ⟨seen k' + 1, by omega, ?_⟩
      unfold applySuffixesGo
      rw [if_neg hq, List.getElem?_cons_zero]
    | succ j' =>
      rw [List.getElem?_cons_succ] at h
      unfold applySuffixesGo
      by_cases hb : clean_base o' = [] ∨ counts k' ≤ 1
      · rw [if_pos hb, List.getElem?_cons_succ]
        exact ih seen j' o k h hq
      · rw [if_neg hb, List.getElem?_cons_succ]
        obtain ⟨b, hb1, hb2⟩ :=
          ih (fun k2 => if k2 = k' then seen k' + 1 else seen k2) j' o k h hq
        refine ⟨b, ?_, hb2⟩
        by_cases hkk : k = k'
        · subst hkk; simp at hb1; omega
        · simp [hkk] at hb1; omega

theorem applySuffixesGo_pair_distinct (counts : PyStr → Nat) :
    ∀ (ps : List (PyStr × PyStr)) (seen : PyStr → Nat) (i j : Nat)
      (oi oj k : PyStr),
      i < j → ps[i]? = some (oi, k) → ps[j]? = some (oj, k) →
      ¬ (clean_base oi = [] ∨ counts k ≤ 1) →
      ¬ (clean_base oj = [] ∨ counts k ≤ 1) →
      ∃ a b, a < b ∧
        (applySuffixesGo counts ps seen)[i]? = some (clean_base oi ++ dupSuffix a) ∧
        (applySuffixesGo counts ps seen)[j]? = some (clean_base oj ++ dupSuffix b) := by
  intro ps
  induction ps with
  | nil => intro seen i j oi oj k _ h1 _ _ _; simp at h1
  | cons p rest ih =>
    intro seen i j oi oj k hij h1 h2 hqi hqj
    obtain ⟨o', k'⟩ := p
    cases j with
    | zero => omega
    | succ j' =>
      rw [List.getElem?_cons_succ] at h2
      cases i with
      | zero =>
        rw [List.getElem?_cons_zero] at h1
        have : o' = oi ∧ k' = k := by
          have := Option.some.inj h1
          exact ⟨congrArg Prod.fst this, congrArg Prod.snd this⟩
        obtain ⟨rfl, rfl⟩ := this
        unfold applySuffixesGo
        rw [if_neg hqi]
        obtain ⟨b, hb1, hb2⟩ :=
          applySuffixesGo_get_suffix counts rest
            (fun k2 => if k2 = k' then seen k' + 1 else seen k2) j' oj k' h2 hqj
        simp only [if_pos rfl] at hb1
        exact ⟨seen k' + 1, b, hb1, by rw [List.getElem?_cons_zero],
          by rw [List.getElem?_cons_succ]; exact hb2⟩
      | succ i' =>
        rw [List.getElem?_cons_succ] at h1
        unfold applySuffixesGo
        by_cases hb : clean_base o' = [] ∨ counts k' ≤ 1
        · rw [if_pos hb]
          obtain ⟨a, b, hab, ha, hbj⟩ := ih seen i' j' oi oj k (by omega) h1 h2 hqi hqj
          exact ⟨a, b, hab, by rw [List.getElem?_cons_succ]; exact ha,
            by rw [List.getElem?_cons_succ]; exact hbj⟩
        · rw [if_neg hb]
          obtain ⟨a, b, hab, ha, hbj⟩ :=
            ih (fun k2 => if k2 = k' then seen k' + 1 else seen k2) i' j' oi oj k
              (by omega) h1 h2 hqi hqj
          exact ⟨a, b, hab, by rw [List.getElem?_cons_succ]; exact ha,
            by rw [List.getElem?_cons_succ]; exact hbj⟩

theorem apply_suffixes_length (names : List PyStr) :
    (apply_suffixes names).length = names.length := by
  unfold apply_suffixes
  rw [applySuffixesGo_length, List.length_zip, List.length_map]
  omega

theorem apply_suffixes_distinct_of_same_key_lt (names : List PyStr)
    (i j : Nat) (a b : PyStr) (hij : i < j)
    (hi : names[i]? = some a) (hj : names[j]? = some b)
    (hk : normalize_key a = normalize_key b) (hk0 : normalize_key a ≠ []) :
    (apply_suffixes names)[i]? ≠ (apply_suffixes names)[j]? := by
  intro heq
  set keys := names.map normalize_key with hkeys
  have hki : keys[i]? = some (normalize_key a) := by
    rw [hkeys, List.getElem?_map, hi]; rfl
  have hkj : keys[j]? = some (normalize_key a) := by
    rw [hkeys, List.getElem?_map, hj, hk]; rfl
  have hcount : 2 ≤ keys.count (normalize_key a) :=
    count_ge_two_of_two_positions keys i j (normalize_key a) hij hki hkj
  have hcounts : ¬ (keyCounts keys (normalize_key a) ≤ 1) := by
    unfold keyCounts
    rw [if_neg hk0]
    omega
  have hzi : (names.zip keys)[i]? = some (a, normalize_key a) := by
    simp [List.getElem?_zip_eq_some, hi, hki]
  have hzj : (names.zip keys)[j]? = some (b, normalize_key a) := by
    simp [List.getElem?_zip_eq_some, hj, hkj]
  have hqa : ¬ (clean_base a = [] ∨ keyCounts keys (normalize_key a) ≤ 1) := by
    push_neg
    exact ⟨clean_base_ne_nil_of_key_ne_nil a hk0, by omega⟩
  have hqb : ¬ (clean_base b = [] ∨ keyCounts keys (normalize_key a) ≤ 1) := by
    push_neg
    refine ⟨clean_base_ne_nil_of_key_ne_nil b ?_, by omega⟩
    rw [← hk]; exact hk0
  obtain ⟨x, y, hxy, hx, hy⟩ :=
    applySuffixesGo_pair_distinct (keyCounts keys) (names.zip keys)
      (fun _ => 0) i j a b (normalize_key a) hij hzi hzj hqa hqb
  unfold apply_suffixes at heq
  rw [← hkeys] at heq
  rw [hx, hy] at heq
  have := Option.some.inj heq
  exact absurd (dupSuffix_append_inj _ _ x y this) (by omega)

theorem apply_suffixes_distinct_of_same_key (names : List PyStr)
    (i j : Nat) (a b : PyStr) (hij : i ≠ j)
    (hi : names[i]? = some a) (hj : names[j]? = some b)
    (hk : normalize_key a = normalize_key b) (hk0 : normalize_key a ≠ []) :
    (apply_suffixes names)[i]? ≠ (apply_suffixes names)[j]? := by
  rcases Nat.lt_or_ge i j with h | h
  · exact apply_suffixes_distinct_of_same_key_lt names i j a b h hi hj hk hk0
  · have hlt : j < i := by omega
    intro heq
    exact apply_suffixes_distinct_of_same_key_lt names j i b a hlt hj hi hk.symm
      (hk ▸ hk0) heq.symm

theorem apply_duplicate_suffixes_get (rs : List AssetResult) (i : Nat)
    (r : AssetResult) (h : rs[i]? = some r) :
    ∃ e a, (apply_suffixes (rs.map (·.english_name)))[i]? = some e ∧
      (apply_suffixes (rs.map (·.arabic_name)))[i]? = some a ∧
      (apply_duplicate_suffixes rs)[i]? =
        some { r with english_name := e, arabic_name := a } := by
  have hilt : i < rs.length := by
    by_contra hge
    rw [List.getElem?_eq_none (by omega)] at h
    exact Option.noConfusion h
  have hE : i < (apply_suffixes (rs.map (·.english_name))).length := by
    rw [apply_suffixes_length, List.length_map]; omega
  have hA : i < (apply_suffixes (rs.map (·.arabic_name))).length := by
    rw [apply_suffixes_length, List.length_map]; omega
  refine ⟨(apply_suffixes (rs.map (·.english_name)))[i],
    (apply_suffixes (rs.map (·.arabic_name)))[i],
    List.getElem?_eq_getElem hE, List.getElem?_eq_getElem hA, ?_⟩
  unfold apply_duplicate_suffixes
  rw [List.getElem?_map]
  rw [show (rs.zip ((apply_suffixes (rs.map (·.english_name))).zip
        (apply_suffixes (rs.map (·.arabic_name)))))[i]?
      = some (r, (apply_suffixes (rs.map (·.english_name)))[i],
        (apply_suffixes (rs.map (·.arabic_name)))[i]) from by
    simp [List.getElem?_zip_eq_some, h, List.getElem?_eq_getElem hE,
      List.getElem?_eq_getElem hA]]
  rfl

theorem apply_duplicate_suffixes_length (rs : List AssetResult) :
    (apply_duplicate_suffixes rs).length = rs.length := by
  unfold apply_duplicate_suffixes
  rw [List.length_map, List.length_zip, List.length_zip,
    apply_suffixes_length, apply_suffixes_length, List.length_map, List.length_map]
  omega

theorem count_le_one_of_nodup :
    ∀ l : List PyStr, l.Nodup → ∀ k, l.count k ≤ 1 := by
  intro l
  induction l with
  | nil => intro _ k; simp
  | cons x t ih =>
    intro h k
    rw [List.nodup_cons] at h
    rw [List.count_cons]
    by_cases hk : k = x
    · subst hk
      rw [List.count_eq_zero.mpr h.1]
      simp
    · rw [if_neg (by simp [Ne.symm hk])]
      have := ih h.2 k
      omega

theorem count_filter_ne_nil (k : PyStr) (hk : k ≠ []) :
    ∀ l : List PyStr, (l.filter (· ≠ [])).count k = l.count k := by
  intro l
  induction l with
  | nil => rfl
  | cons x t ih =>
    rw [List.filter_cons]
    by_cases hx : x = []
    · subst hx
      rw [if_neg (by simp)]
      rw [ih, List.count_cons, if_neg (by simp [hk])]
      omega
    · rw [if_pos (by simp [hx])]
      rw [List.count_cons, List.count_cons, ih]

theorem applySuffixesGo_all_pass (counts : PyStr → Nat) :
    ∀ (ps : List (PyStr × PyStr)) (seen : PyStr → Nat),
      (∀ p ∈ ps, clean_base p.1 = [] ∨ counts p.2 ≤ 1) →
      applySuffixesGo counts ps seen = ps.map (fun p => clean_base p.1) := by
  intro ps
  induction ps with
  | nil => intro seen _; rfl
  | cons p rest ih =>
    intro seen h
    obtain ⟨o, k⟩ := p
    unfold applySuffixesGo
    rw [if_pos (h (o, k) (by simp))]
    rw [ih seen (fun q hq => h q (by simp [hq]))]
    rfl

theorem applySuffixesGo_output_form (counts : PyStr → Nat) :
    ∀ (ps : List (PyStr × PyStr)) (seen : PyStr → Nat),
      ∀ x ∈ applySuffixesGo counts ps seen,
        (∃ o, x = clean_base o) ∨
        (∃ o n, x = clean_base o ++ dupSuffix n ∧ clean_base o ≠ []) := by
  intro ps
  induction ps with
  | nil => intro seen x hx; simp [applySuffixesGo] at hx
  | cons p rest ih =>
    intro seen x hx
    obtain ⟨o, k⟩ := p
    unfold applySuffixesGo at hx
    by_cases hb : clean_base o = [] ∨ counts k ≤ 1
    · rw [if_pos hb] at hx
      rcases List.mem_cons.mp hx with h1 | h1
      · exact Or.inl ⟨o, h1⟩
      · exact ih seen x h1
    · rw [if_neg hb] at hx
      rcases List.mem_cons.mp hx with h1 | h1
      · push_neg at hb
        exact Or.inr ⟨o, seen k + 1, h1, hb.1⟩
      · exact ih _ x h1

theorem apply_suffixes_fixed_point (out : List PyStr)
    (hform : ∀ x ∈ out, (∃ o, x = clean_base o) ∨
      (∃ o n, x = clean_base o ++ dupSuffix n ∧ clean_base o ≠ []))
    (hnodup : ((out.map normalize_key).filter (· ≠ [])).Nodup) :
    apply_suffixes out = out := by
  unfold apply_suffixes
  rw [applySuffixesGo_all_pass (keyCounts (out.map normalize_key))
    (out.zip (out.map normalize_key)) (fun _ => 0) ?hpass]
  case hpass =>
    intro p _
    right
    unfold keyCounts
    by_cases hk : p.2 = []
    · rw [if_pos hk]; omega
    · rw [if_neg hk]
      rw [← count_filter_ne_nil p.2 hk]
      exact count_le_one_of_nodup _ hnodup p.2
  have hmap : (out.zip (out.map normalize_key)).map (fun p => clean_base p.1)
      = out.map clean_base := by
    rw [show (fun p : PyStr × PyStr => clean_base p.1)
        = (clean_base ∘ Prod.fst) from rfl, List.comp_map]
    congr 1
    exact List.map_fst_zip out (out.map normalize_key) (by simp)
  rw [hmap]
  apply map_id_of_mem
  intro x hx
  rcases hform x hx with ⟨o, rfl⟩ | ⟨o, n, rfl, hne⟩
  · exact clean_base_idem o
  · exact clean_base_append_dupSuffix o n hne

theorem asset_tags_line_disjoint (l : PyStr) (h : isAssetLine l = true) :
    isTagsLine l = false := by
  unfold isAssetLine at h
  unfold isTagsLine
  cases l with
  | nil => simp [assetLabel, pystr, startsWithSeq] at h
  | cons c t =>
    simp only [List.map_cons] at h ⊢
    unfold assetLabel pystr at h
    unfold tagsLabel pystr
    rw [show ("asset name:" : String).data
        = 'a' :: 's' :: 's' :: 'e' :: 't' :: ' ' :: 'n' :: 'a' :: 'm' :: 'e' :: [':'] from rfl] at h
    rw [show ("tags:" : String).data = 't' :: 'a' :: 'g' :: [':'].cons 's' from rfl]
    unfold startsWithSeq at h ⊢
    rw [Bool.and_eq_true, beq_iff_eq] at h
    by_contra hcon
    rw [Bool.not_eq_false, Bool.and_eq_true, beq_iff_eq] at hcon
    rw [← h.1] at hcon
    exact absurd hcon.1 (by decide)

/-- Index of the last element satisfying `p` (specification-side helper). -/
def lastIdxWith (p : PyStr → Bool) : List PyStr → Option Nat
  | [] => none
  | l :: rest =>
    match lastIdxWith p rest with
    | some k => some (k + 1)
    | none => if p l then some 0 else none

/-- The last line satisfying `p`, or the empty string (specification-side). -/
def lastLineWith (p : PyStr → Bool) (lns : List PyStr) : PyStr :=
  ((lns.filter p).getLast?).getD []

theorem scanLabels_fst :
    ∀ (lns : List PyStr) (i : Nat) (a t : PyStr) (ti : Option Nat),
      (scanLabels lns i a t ti).1 = ((lns.filter isAssetLine).getLast?).getD a := by
  intro lns
  induction lns with
  | nil => intro i a t ti; rfl
  | cons l rest ih =>
    intro i a t ti
    unfold scanLabels
    by_cases h1 : isAssetLine l
    · rw [if_pos h1, ih, List.filter_cons, if_pos (by simp [h1])]
      rcases hrec : (rest.filter isAssetLine).getLast? with _ | w
      · simp [List.getLast?_cons, hrec]
      · simp [List.getLast?_cons, hrec]
    · rw [if_neg h1]
      by_cases h2 : isTagsLine l
      · rw [if_pos h2, ih, List.filter_cons, if_neg (by simp [h1])]
      · rw [if_neg h2, ih, List.filter_cons, if_neg (by simp [h1])]

theorem scanLabels_snd :
    ∀ (lns : List PyStr) (i : Nat) (a t : PyStr) (ti : Option Nat),
      (scanLabels lns i a t ti).2.1 = ((lns.filter isTagsLine).getLast?).getD t := by
  intro lns
  induction lns with
  | nil => intro i a t ti; rfl
  | cons l rest ih =>
    intro i a t ti
    unfold scanLabels
    by_cases h1 : isAssetLine l
    · rw [if_pos h1, ih, List.filter_cons,
        if_neg (by simp [asset_tags_line_disjoint l h1])]
    · rw [if_neg h1]
      by_cases h2 : isTagsLine l
      · rw [if_pos h2, ih, List.filter_cons, if_pos (by simp [h2])]
        rcases hrec : (rest.filter isTagsLine).getLast? with _ | w
        · simp [List.getLast?_cons, hrec]
        · simp [List.getLast?_cons, hrec]
      · rw [if_neg h2, ih, List.filter_cons, if_neg (by simp [h2])]

theorem scanLabels_idx :
    ∀ (lns : List PyStr) (i : Nat) (a t : PyStr) (ti : Option Nat),
      (scanLabels lns i a t ti).2.2 =
        match lastIdxWith isTagsLine lns with
        | some k => some (i + k)
        | none => ti := by
  intro lns
  induction lns with
  | nil => intro i a t ti; rfl
  | cons l rest ih =>
    intro i a t ti
    unfold scanLabels lastIdxWith
    by_cases h1 : isAssetLine l
    · rw [if_pos h1, ih]
      rcases hrec : lastIdxWith isTagsLine rest with _ | k
      · simp [asset_tags_line_disjoint l h1]
      · simp only []
        congr 1
        omega
    · rw [if_neg h1]
      by_cases h2 : isTagsLine l
      · rw [if_pos h2, ih]
        rcases hrec : lastIdxWith isTagsLine rest with _ | k
        · simp [h2]
        · simp only []
          congr 1
          omega
      · rw [if_neg h2, ih]
        rcases hrec : lastIdxWith isTagsLine rest with _ | k
        · simp [h2]
        · simp only []
          congr 1
          omega

/-- The Field Extractor exactly as claim C2 words it: both authoritative
lines are the *last* labelled lines, and the Arabic-name lookahead inspects
the single line after that authoritative (last) name line whenever the name
value has no Arabic characters. -/
def field_extract_claimC2 (text : PyStr) : PyStr × PyStr :=
  let lns := pyLines text
  let asset_value := valueAfterColon (lastLineWith isAssetLine lns)
  let tags_value0 := valueAfterColon (lastLineWith isTagsLine lns)
  let continuation_lines :=
    match lastIdxWith isTagsLine lns with
    | some ti => collectContinuations (lns.drop (ti + 1))
    | none => []
  let tags_value := merge_tag_lines tags_value0 continuation_lines
  let asset_value :=
    if ¬ has_arabic asset_value then
      match lastIdxWith isAssetLine lns with
      | some ai =>
        match lns[ai + 1]? with
        | some next_line =>
          if has_arabic next_line ∧ ¬ isTagsLine next_line then
            asset_value ++ pystr " / " ++ next_line
          else asset_value
        | none => asset_value
      | none => asset_value
    else asset_value
  (asset_value, tags_value)

/-- The Field Extractor as the amended claim words it: the authoritative
name and tags lines are the *last* labelled lines, but the Arabic-name
lookahead inspects the single line after the *first* `"asset name:"` line,
and only when the extracted name value is non-empty. -/
def field_extract_amendedC2 (text : PyStr) : PyStr × PyStr :=
  let lns := pyLines text
  let asset_value := valueAfterColon (lastLineWith isAssetLine lns)
  let tags_value0 := valueAfterColon (lastLineWith isTagsLine lns)
  let continuation_lines :=
    match lastIdxWith isTagsLine lns with
    | some ti => collectContinuations (lns.drop (ti + 1))
    | none => []
  let tags_value := merge_tag_lines tags_value0 continuation_lines
  let asset_value :=
    if asset_value ≠ [] ∧ ¬ has_arabic asset_value then
      match firstIdxWith isAssetLine lns with
      | some ai =>
        match lns[ai + 1]? with
        | some next_line =>
          if has_arabic next_line ∧ ¬ isTagsLine next_line then
            asset_value ++ pystr " / " ++ next_line
          else asset_value
        | none => asset_value
      | none => asset_value
    else asset_value
  (asset_value, tags_value)

theorem extract_fields_eq_amendedC2 (text : PyStr) :
    extract_fields text = field_extract_amendedC2 text := by
  unfold extract_fields field_extract_amendedC2
  simp only [scanLabels_fst, scanLabels_snd, scanLabels_idx]
  rcases h : lastIdxWith isTagsLine (pyLines text) with _ | k
  · rfl
  · simp only [Nat.zero_add]
    rfl

/-! ## Claim-level definitions and theorems -/

/-- Claim C1's Quality-Gate condition read literally: a language count is
"below 25% of the total" when `4 * count < total`. -/
def needs_correction_claimC1 (arabic_name tags : PyStr) : Prop :=
  ¬ has_arabic arabic_name ∨ (strippedTagList tags).length = 0 ∨
    (strippedTagList tags).length > 80 ∨
    4 * (strippedTagList tags).countP (fun tag => has_arabic tag)
      < (strippedTagList tags).length ∨
    4 * (strippedTagList tags).countP (fun tag => tag.any summarizeLatinChar)
      < (strippedTagList tags).length

/-- The Quality-Gate condition with the flooring the code applies: a language
count is below the threshold `max 1 (total / 4)`. -/
def needs_correction_amendedC1 (arabic_name tags : PyStr) : Prop :=
  ¬ has_arabic arabic_name ∨ (strippedTagList tags).length = 0 ∨
    (strippedTagList tags).length > 80 ∨
    (strippedTagList tags).countP (fun tag => has_arabic tag)
      < max 1 ((strippedTagList tags).length / 4) ∨
    (strippedTagList tags).countP (fun tag => tag.any summarizeLatinChar)
      < max 1 ((strippedTagList tags).length / 4)

/-- C1 (counterexample): with `arabic_name = "م"` and five non-empty tags of
which exactly one contains Arabic (that one also contains a Latin letter) and
all five contain Latin letters, the share of Arabic tags is 1/5 — below 25% —
so the claim as stated demands "needs correction"; the code returns
"no correction needed" because its threshold is `max 1 (int(5 * 0.25))  = 1`
and `1 < 1` is false. -/
theorem claimC1_counterexample :
    needs_rewrite (pystr "م") (pystr "مa, b, c, d, e") = false ∧
      needs_correction_claimC1 (pystr "م") (pystr "مa, b, c, d, e") := by
  constructor
  · decide
  · unfold needs_correction_claimC1
    decide

/-- C1 (amended): the Quality Gate returns "needs correction" exactly when
arabic_name has no Arabic character, or the non-empty tag list is empty or
longer than 80, or one of the language counts is below the floored threshold
`max 1 (total / 4)` (a single tag may count toward both languages). -/
theorem needs_rewrite_iff_amendedC1 (arabic_name tags : PyStr) :
    needs_rewrite arabic_name tags = true ↔
      needs_correction_amendedC1 arabic_name tags := by
  unfold needs_rewrite needs_correction_amendedC1 summarize_tags
  by_cases h1 : has_arabic arabic_name <;>
    by_cases h2 : (strippedTagList tags).length = 0 <;>
      by_cases h3 : (strippedTagList tags).length > 80 <;>
        simp [h1, h2, h3]

/-- C8: with primary tokens `building, architecture, modern` and the Arabic
continuation line, the pairing heuristic fires and the merger returns exactly
the positionally paired bilingual tag string. -/
theorem merge_tag_lines_claimC8 :
    merge_tag_lines (pystr "building, architecture, modern")
        [pystr "مبنى، عمارة، حديث"]
      = pystr "building / مبنى, architecture / عمارة, modern / حديث" := by
  decide

/-- C5 (counterexample): the accented e in `"Café — Building"` survives NFKC, case
folding and the letter/number filter, so the key keeps it and differs from
the key of `"cafe building"`; and the claim's second Arabic string ends in
U+06CC (Farsi yeh), which the letter map does not fold, while the first ends
in U+0649 (alef maksura), folded to U+064A — the keys differ. -/
theorem claimC5_counterexample :
    normalize_key (pystr "Café — Building") ≠ normalize_key (pystr "cafe building")
      ∧ normalize_key (pystr "مبنى") ≠ normalize_key (pystr "مبنی") := by
  constructor
  · decide
  · decide

/-- C5 (amended): the key builder is case/punctuation-insensitive but not
accent-folding — `"Café — Building"` and `"café building"` (accent kept)
share a key — and alef maksura folds to the Arabic yeh U+064A, so `"مبنى"`
and `"مبني"` share a key. -/
theorem normalize_key_amendedC5 :
    normalize_key (pystr "Café — Building") = normalize_key (pystr "café building")
      ∧ normalize_key (pystr "مبنى") = normalize_key (pystr "مبني") := by
  constructor
  · decide
  · decide

/-- Two batch entries whose English names are `"!!!"` — non-blank, but with
an empty canonical key. -/
def cexC3 : List AssetResult :=
  [⟨pystr "1", pystr "a.png", pystr "!!!", [], [], []⟩,
   ⟨pystr "2", pystr "b.png", pystr "!!!", [], [], []⟩]

/-- C3 (counterexample): both entries keep the identical display name
`"!!!"` after suffixing, although neither original name is blank — names
whose canonical key is empty are never suffixed. -/
theorem claimC3_counterexample :
    (apply_duplicate_suffixes cexC3).map (fun r => r.english_name)
        = [pystr "!!!", pystr "!!!"]
      ∧ pystr "!!!" ≠ [] ∧ pyStrip (pystr "!!!") = pystr "!!!" := by
  refine ⟨by decide, by decide, by decide⟩

/-- C3 (amended): within the same language, two entries whose names share
the same non-empty canonical key always receive distinct display names. -/
theorem apply_duplicate_suffixes_distinct_amendedC3
    (rs : List AssetResult) (i j : Nat) (ri rj : AssetResult)
    (hi : rs[i]? = some ri) (hj : rs[j]? = some rj) (hij : i ≠ j) :
    (normalize_key ri.english_name = normalize_key rj.english_name →
      normalize_key ri.english_name ≠ [] →
      ((apply_duplicate_suffixes rs)[i]?).map (fun r => r.english_name)
        ≠ ((apply_duplicate_suffixes rs)[j]?).map (fun r => r.english_name)) ∧
    (normalize_key ri.arabic_name = normalize_key rj.arabic_name →
      normalize_key ri.arabic_name ≠ [] →
      ((apply_duplicate_suffixes rs)[i]?).map (fun r => r.arabic_name)
        ≠ ((apply_duplicate_suffixes rs)[j]?).map (fun r => r.arabic_name)) := by
  obtain ⟨ei, ai, hei, hai, houti⟩ := apply_duplicate_suffixes_get rs i ri hi
  obtain ⟨ej, aj, hej, haj, houtj⟩ := apply_duplicate_suffixes_get rs j rj hj
  constructor
  · intro hk hk0
    have hni : (rs.map (fun r => r.english_name))[i]? = some ri.english_name := by
      rw [List.getElem?_map, hi]; rfl
    have hnj : (rs.map (fun r => r.english_name))[j]? = some rj.english_name := by
      rw [List.getElem?_map, hj]; rfl
    have hne := apply_suffixes_distinct_of_same_key (rs.map (fun r => r.english_name))
      i j ri.english_name rj.english_name hij hni hnj hk hk0
    rw [houti, houtj]
    intro heq
    apply hne
    rw [hei, hej]
    simpa using heq
  · intro hk hk0
    have hni : (rs.map (fun r => r.arabic_name))[i]? = some ri.arabic_name := by
      rw [List.getElem?_map, hi]; rfl
    have hnj : (rs.map (fun r => r.arabic_name))[j]? = some rj.arabic_name := by
      rw [List.getElem?_map, hj]; rfl
    have hne := apply_suffixes_distinct_of_same_key (rs.map (fun r => r.arabic_name))
      i j ri.arabic_name rj.arabic_name hij hni hnj hk hk0
    rw [houti, houtj]
    intro heq
    apply hne
    rw [hai, haj]
    simpa using heq

/-- A concrete duplicate batch for the C3 witness. -/
def witC3 : List AssetResult :=
  [⟨pystr "1", pystr "a.png", pystr "Logo", pystr "لوجو", [], []⟩,
   ⟨pystr "2", pystr "b.png", pystr "Logo", pystr "لوجو", [], []⟩]

theorem apply_duplicate_suffixes_distinct_amendedC3_witness :
    ((apply_duplicate_suffixes witC3)[0]?).map (fun r => r.english_name)
      ≠ ((apply_duplicate_suffixes witC3)[1]?).map (fun r => r.english_name) :=
  (apply_duplicate_suffixes_distinct_amendedC3 witC3 0 1
      ⟨pystr "1", pystr "a.png", pystr "Logo", pystr "لوجو", [], []⟩
      ⟨pystr "2", pystr "b.png", pystr "Logo", pystr "لوجو", [], []⟩
      (by decide) (by decide) (by decide)).1 (by decide) (by decide)

/-- Names for the C4 counterexample: two duplicates of `"A"` plus a literal
`"A - 001"` that collides with the first generated suffix. -/
def cexC4 : List PyStr := [pystr "A", pystr "A", pystr "A - 001"]

/-- C4 (counterexample): one run maps the batch to
`["A - 001", "A - 002", "A - 001"]`, whose first and third keys now collide,
so a second run suffixes again — the suffixer is not idempotent on every
batch. -/
theorem claimC4_counterexample :
    apply_suffixes (apply_suffixes cexC4) ≠ apply_suffixes cexC4 := by
  decide

/-- C4 (amended): one suffixing pass is a fixed point whenever the first
pass's output has pairwise-distinct non-empty canonical keys (in particular
a name that is already unique keeps no suffix, and distinct `" - NNN"`
suffixes keep the keys distinct); the counterexample shows the hypothesis is
needed when a pre-suffixed name collides with a generated suffix. -/
theorem apply_suffixes_idem_amendedC4 (names : List PyStr)
    (h : (((apply_suffixes names).map normalize_key).filter (· ≠ [])).Nodup) :
    apply_suffixes (apply_suffixes names) = apply_suffixes names := by
  apply apply_suffixes_fixed_point (apply_suffixes names) ?_ h
  intro x hx
  unfold apply_suffixes at hx
  exact applySuffixesGo_output_form _ _ _ x hx

theorem apply_suffixes_idem_amendedC4_witness :
    apply_suffixes (apply_suffixes [pystr "Logo", pystr "Banner", pystr "Logo"])
      = apply_suffixes [pystr "Logo", pystr "Banner", pystr "Logo"] :=
  apply_suffixes_idem_amendedC4 [pystr "Logo", pystr "Banner", pystr "Logo"]
    (by decide)

/-- C10: the Duplicate Suffixer preserves the batch length and order, and
every field other than the two name fields (`task_id`, `display_name`,
`tags`, `raw_text`) is copied unchanged to the entry at the same position. -/
theorem apply_duplicate_suffixes_frameC10 (rs : List AssetResult) :
    (apply_duplicate_suffixes rs).length = rs.length ∧
    ∀ (i : Nat) (r r' : AssetResult), rs[i]? = some r →
      (apply_duplicate_suffixes rs)[i]? = some r' →
      r'.task_id = r.task_id ∧ r'.display_name = r.display_name ∧
        r'.tags = r.tags ∧ r'.raw_text = r.raw_text := by
  refine ⟨apply_duplicate_suffixes_length rs, ?_⟩
  intro i r r' hr hout
  obtain ⟨e, a, _, _, hget⟩ := apply_duplicate_suffixes_get rs i r hr
  rw [hget] at hout
  have := Option.some.inj hout
  rw [← this]
  exact ⟨rfl, rfl, rfl, rfl⟩

/-- A placeholder result used as the default of `Option.getD`. -/
def emptyResult : AssetResult := ⟨[], [], [], [], [], []⟩

theorem apply_duplicate_suffixes_frameC10_witness :
    (apply_duplicate_suffixes witC3).length = witC3.length ∧
      ((apply_duplicate_suffixes witC3)[0]?.getD emptyResult).task_id = pystr "1" := by
  have hmain := apply_duplicate_suffixes_frameC10 witC3
  refine ⟨hmain.1, ?_⟩
  have h2 := hmain.2 0
    ⟨pystr "1", pystr "a.png", pystr "Logo", pystr "لوجو", [], []⟩
    ((apply_duplicate_suffixes witC3)[0]?.getD emptyResult)
    (by decide)
    (by decide)
  exact h2.1

/-- The C2 counterexample text: the first `"asset name:"` line is followed by
an Arabic-only line, and a later `"asset name:"` line is the authoritative
one. -/
def cexC2 : PyStr := pystr "asset name: Foo\nمبنى\nasset name: Bar"

/-- C2 (counterexample): on this text the extractor appends the Arabic line
that follows the *first* name line to the value of the *last* name line,
whereas the claim (lookahead after the authoritative, last name line) keeps
the bare value — the two disagree. -/
theorem claimC2_counterexample :
    extract_fields cexC2 ≠ field_extract_claimC2 cexC2
      ∧ (extract_fields cexC2).1 = pystr "Bar / مبنى"
      ∧ (field_extract_claimC2 cexC2).1 = pystr "Bar" := by
  refine ⟨by decide, by decide, by decide⟩

theorem dedupTagsGo_key_not_seen :
    ∀ (ts seen : List PyStr) (x : PyStr), x ∈ dedupTagsGo ts seen →
      pyStrip (x.map pyLower) ∉ seen := by
  intro ts
  induction ts with
  | nil => intro seen x hx; simp [dedupTagsGo] at hx
  | cons t rest ih =>
    intro seen x hx
    unfold dedupTagsGo at hx
    by_cases hc : seen.contains (pyStrip (t.map pyLower))
    · rw [if_pos hc] at hx
      exact ih seen x hx
    · rw [if_neg hc] at hx
      rcases List.mem_cons.mp hx with h1 | h1
      · subst h1
        intro hmem
        exact hc (List.contains_iff_exists_mem_beq.mpr ⟨_, hmem, by simp⟩)
      · intro hmem
        exact ih _ x h1 (by simp [hmem])

theorem dedupTagsGo_pairwise :
    ∀ (ts seen : List PyStr),
      List.Pairwise (fun a b => pyStrip (a.map pyLower) ≠ pyStrip (b.map pyLower))
        (dedupTagsGo ts seen) := by
  intro ts
  induction ts with
  | nil => intro seen; simp [dedupTagsGo]
  | cons t rest ih =>
    intro seen
    unfold dedupTagsGo
    by_cases hc : seen.contains (pyStrip (t.map pyLower))
    · rw [if_pos hc]
      exact ih seen
    · rw [if_neg hc]
      refine List.Pairwise.cons ?_ (ih _)
      intro b hb heq
      have := dedupTagsGo_key_not_seen rest (pyStrip (t.map pyLower) :: seen) b hb
      exact this (by simp [heq])

/-- C9: the cleaned-up tag list of every asset contains no two entries equal
under simple case folding and has at most 40 entries; the tag string stored
on the `AssetResult` is this list joined with `", "`. -/
theorem final_tags_list_claimC9 (tags : PyStr) :
    (final_tags_list tags).length ≤ 40 ∧
      List.Pairwise (fun a b => a.map pyLower ≠ b.map pyLower)
        (final_tags_list tags) ∧
      cleanup_tags tags = if tags = [] then tags
        else joinSep (pystr ", ") (final_tags_list tags) := by
  refine ⟨?_, ?_, ?_⟩
  · unfold final_tags_list
    by_cases h : tags = []
    · simp [h]
    · rw [if_neg h]
      exact List.length_take_le 40 _
  · unfold final_tags_list
    by_cases h : tags = []
    · simp [h]
    · rw [if_neg h]
      refine List.Pairwise.sublist (List.take_sublist 40 _) ?_
      exact (dedupTagsGo_pairwise _ []).imp
        (fun h heq => h (by rw [heq]))
  · unfold cleanup_tags
    by_cases h : tags = []
    · simp [h]
    · simp [h]

theorem startsWithSeq_decomp :
    ∀ (p s : PyStr), startsWithSeq p s = true → s = p ++ s.drop p.length := by
  intro p
  induction p with
  | nil => intro s _; rfl
  | cons a p' ih =>
    intro s h
    cases s with
    | nil => simp [startsWithSeq] at h
    | cons c rest =>
      unfold startsWithSeq at h
      rw [Bool.and_eq_true, beq_iff_eq] at h
      obtain ⟨rfl, h2⟩ := h
      have := ih rest h2
      calc a :: rest = a :: (p' ++ rest.drop p'.length) := by rw [← this]
        _ = (a :: p') ++ (a :: rest).drop (a :: p').length := by simp

theorem splitOnceSeq_decomp (sep : PyStr) :
    ∀ (s l r : PyStr), splitOnceSeq sep s = some (l, r) → s = l ++ sep ++ r := by
  intro s
  induction s with
  | nil =>
    intro l r h
    unfold splitOnceSeq at h
    by_cases hsep : startsWithSeq sep []
    · rw [if_pos hsep] at h
      have h2 := Option.some.inj h
      obtain ⟨rfl, rfl⟩ : ([] : PyStr) = l ∧ ([] : PyStr) = r :=
        ⟨congrArg Prod.fst h2, congrArg Prod.snd h2⟩
      cases sep with
      | nil => rfl
      | cons a t => simp [startsWithSeq] at hsep
    · rw [if_neg hsep] at h
      exact Option.noConfusion h
  | cons c rest ih =>
    intro l r h
    unfold splitOnceSeq at h
    by_cases hsw : startsWithSeq sep (c :: rest)
    · rw [if_pos hsw] at h
      have h2 := Option.some.inj h
      obtain ⟨rfl, rfl⟩ : ([] : PyStr) = l ∧ (c :: rest).drop sep.length = r :=
        ⟨congrArg Prod.fst h2, congrArg Prod.snd h2⟩
      simpa using startsWithSeq_decomp sep (c :: rest) hsw
    · rw [if_neg hsw] at h
      rcases hrec : splitOnceSeq sep rest with _ | ⟨l', r'⟩
      · rw [hrec] at h
        exact Option.noConfusion h
      · rw [hrec] at h
        have h2 := Option.some.inj h
        obtain ⟨rfl, rfl⟩ : c :: l' = l ∧ r' = r :=
          ⟨congrArg Prod.fst h2, congrArg Prod.snd h2⟩
        rw [ih l' r' hrec]
        simp

theorem splitOnceSeq_single_none (sc : Char) :
    ∀ s : PyStr, (∀ c ∈ s, c ≠ sc) → splitOnceSeq [sc] s = none := by
  intro s
  induction s with
  | nil => intro _; rfl
  | cons c rest ih =>
    intro h
    unfold splitOnceSeq
    rw [if_neg (by
      unfold startsWithSeq
      simp only [Bool.and_eq_true, beq_iff_eq]
      intro hcon
      exact h c (by simp) hcon.1.symm)]
    rw [ih (fun x hx => h x (by simp [hx]))]

theorem splitOnceSeq_single_mem (sc : Char) (s l r : PyStr)
    (h : splitOnceSeq [sc] s = some (l, r)) : sc ∈ s := by
  rw [splitOnceSeq_decomp [sc] s l r h]
  simp

theorem head?_dropWhile (p : Char → Bool) :
    ∀ l : PyStr, ∀ c ∈ (l.dropWhile p).head?, ¬ p c := by
  intro l
  induction l with
  | nil => intro c hc; simp at hc
  | cons a t ih =>
    intro c hc
    rw [List.dropWhile_cons] at hc
    by_cases ha : p a
    · rw [if_pos ha] at hc
      exact ih c hc
    · rw [if_neg ha] at hc
      simp only [List.head?_cons, Option.mem_def, Option.some.injEq] at hc
      subst hc
      exact ha

theorem pyStrip_eq_self_of_edges (s : PyStr)
    (h1 : ∀ c ∈ s.head?, ¬ pyIsSpace c) (h2 : ∀ c ∈ s.getLast?, ¬ pyIsSpace c) :
    pyStrip s = s := by
  unfold pyStrip
  rw [dropWhile_eq_self_of_head pyIsSpace s h1,
    dropWhile_eq_self_of_head pyIsSpace s.reverse (by
      intro c hc
      rw [List.head?_reverse] at hc
      exact h2 c hc),
    List.reverse_reverse]

theorem pyStrip_head_not_space (s : PyStr) :
    ∀ c ∈ (pyStrip s).head?, ¬ pyIsSpace c := by
  intro c hc
  unfold pyStrip at hc
  rcases hv : (s.dropWhile pyIsSpace).reverse.dropWhile pyIsSpace with _ | ⟨x, v'⟩
  · rw [hv] at hc; simp at hc
  · rw [hv, List.head?_reverse] at hc
    obtain ⟨w, hw⟩ : ∃ w, (s.dropWhile pyIsSpace).reverse = w ++ (x :: v') := by
      have hsuf := List.dropWhile_suffix (l := (s.dropWhile pyIsSpace).reverse)
        (p := pyIsSpace)
      rw [hv] at hsuf
      obtain ⟨w, hw⟩ := hsuf
      exact ⟨w, hw.symm⟩
    have hlast : (x :: v').getLast? = (s.dropWhile pyIsSpace).reverse.getLast? := by
      rw [hw, List.getLast?_append]
      rcases hl : (x :: v').getLast? with _ | y
      · simp [List.getLast?_cons] at hl
      · rfl
    rw [hlast, List.getLast?_reverse] at hc
    exact head?_dropWhile pyIsSpace s c hc

theorem pyStrip_last_not_space (s : PyStr) :
    ∀ c ∈ (pyStrip s).getLast?, ¬ pyIsSpace c := by
  intro c hc
  unfold pyStrip at hc
  rw [List.getLast?_reverse] at hc
  exact head?_dropWhile pyIsSpace _ c hc

theorem pyStrip_idem (s : PyStr) : pyStrip (pyStrip s) = pyStrip s :=
  pyStrip_eq_self_of_edges (pyStrip s) (pyStrip_head_not_space s)
    (pyStrip_last_not_space s)

theorem mem_of_mem_pyStrip (s : PyStr) (c : Char) (hc : c ∈ pyStrip s) : c ∈ s := by
  unfold pyStrip at hc
  rw [List.mem_reverse] at hc
  have h1 := (List.dropWhile_sublist pyIsSpace).mem hc
  rw [List.mem_reverse] at h1
  exact (List.dropWhile_sublist pyIsSpace).mem h1

/-- A tag token that the expansion step of `_normalize_tag_format` leaves
unchanged: non-empty, strip-fixed, comma-free, and with no slash split into
two non-blank sides. -/
def tokenFixed (x : PyStr) : Prop :=
  x ≠ [] ∧ pyStrip x = x ∧ (∀ c ∈ x, c ≠ ',') ∧
    (match splitOnceSeq ['/'] x with
     | some (l, r) => pyStrip l = [] ∨ pyStrip r = []
     | none => True)

theorem normalizeTagsGo_tokens_fixed :
    ∀ raws : List PyStr,
      (∀ raw ∈ raws, ∀ c ∈ raw, c ≠ ',') →
      (∀ raw ∈ raws, (pyStrip raw).countP (fun c => c == '/') ≤ 1) →
      ∀ x ∈ normalizeTagsGo raws, tokenFixed x := by
  intro raws
  induction raws with
  | nil => intro _ _ x hx; simp [normalizeTagsGo] at hx
  | cons raw rest ih =>
    intro hcomma hslash x hx
    unfold normalizeTagsGo at hx
    have hcomma_tag : ∀ c ∈ pyStrip raw, c ≠ ',' := fun c hc =>
      hcomma raw (by simp) c (mem_of_mem_pyStrip raw c hc)
    by_cases htag : pyStrip raw = []
    · rw [if_pos htag] at hx
      exact ih (fun r hr => hcomma r (by simp [hr]))
        (fun r hr => hslash r (by simp [hr])) x hx
    · rw [if_neg htag] at hx
      rcases hsplit : splitOnceSeq ['/'] (pyStrip raw) with _ | ⟨l, r⟩
      · rw [hsplit] at hx
        rcases List.mem_cons.mp hx with h1 | h1
        · subst h1
          exact ⟨htag, pyStrip_idem raw, hcomma_tag, by rw [hsplit]; trivial⟩
        · exact ih (fun q hq => hcomma q (by simp [hq]))
            (fun q hq => hslash q (by simp [hq])) x h1
      · rw [hsplit] at hx
        have hdecomp := splitOnceSeq_decomp ['/'] (pyStrip raw) l r hsplit
        have hcount := hslash raw (by simp)
        rw [hdecomp] at hcount
        rw [List.countP_append, List.countP_append] at hcount
        simp at hcount
        have hl0 : l.countP (fun c => c == '/') = 0 := by omega
        have hr0 : r.countP (fun c => c == '/') = 0 := by omega
        have hlnoslash : ∀ c ∈ l, c ≠ '/' := by
          intro c hc hcon
          subst hcon
          have := List.countP_eq_zero.mp hl0 _ hc
          simp at this
        have hrnoslash : ∀ c ∈ r, c ≠ '/' := by
          intro c hc hcon
          subst hcon
          have := List.countP_eq_zero.mp hr0 _ hc
          simp at this
        replace hx : x ∈ (if pyStrip l ≠ [] ∧ pyStrip r ≠ [] then
            pyStrip l :: pyStrip r :: normalizeTagsGo rest
          else pyStrip raw :: normalizeTagsGo rest) := hx
        by_cases hboth : pyStrip l ≠ [] ∧ pyStrip r ≠ []
        · rw [if_pos hboth] at hx
          have hmem_tag : ∀ c : Char, c ∈ l ∨ c ∈ r → c ∈ pyStrip raw := by
            intro c hc
            rw [hdecomp]
            rcases hc with hc | hc <;> simp [hc]
          rcases List.mem_cons.mp hx with h1 | h1
          · subst h1
            refine ⟨hboth.1, pyStrip_idem l, ?_, ?_⟩
            · intro c hc
              exact hcomma_tag c (hmem_tag c (Or.inl (mem_of_mem_pyStrip l c hc)))
            · rw [splitOnceSeq_single_none '/' (pyStrip l)
                (fun c hc => hlnoslash c (mem_of_mem_pyStrip l c hc))]
              trivial
          rcases List.mem_cons.mp h1 with h2 | h2
          · subst h2
            refine ⟨hboth.2, pyStrip_idem r, ?_, ?_⟩
            · intro c hc
              exact hcomma_tag c (hmem_tag c (Or.inr (mem_of_mem_pyStrip r c hc)))
            · rw [splitOnceSeq_single_none '/' (pyStrip r)
                (fun c hc => hrnoslash c (mem_of_mem_pyStrip r c hc))]
              trivial
          · exact ih (fun q hq => hcomma q (by simp [hq]))
              (fun q hq => hslash q (by simp [hq])) x h2
        · rw [if_neg hboth] at hx
          rcases List.mem_cons.mp hx with h1 | h1
          · subst h1
            refine ⟨htag, pyStrip_idem raw, hcomma_tag, ?_⟩
            rw [hsplit]
            push_neg at hboth
            by_cases hl : pyStrip l = []
            · exact Or.inl hl
            · exact Or.inr (hboth hl)
          · exact ih (fun q hq => hcomma q (by simp [hq]))
              (fun q hq => hslash q (by simp [hq])) x h1

theorem normalizeTagsGo_of_forall₂ :
    ∀ (raws ts : List PyStr),
      List.Forall₂ (fun raw t => pyStrip raw = t ∧ tokenFixed t) raws ts →
      normalizeTagsGo raws = ts := by
  intro raws ts h
  induction h with
  | nil => rfl
  | cons hrel hrest ih =>
    rename_i raw t raws' ts'
    have hstrip := hrel.1
    have hne := hrel.2.1
    have hmatch := hrel.2.2.2.2
    unfold normalizeTagsGo
    rw [hstrip, if_neg hne]
    rcases hsplit : splitOnceSeq ['/'] t with _ | ⟨l, r⟩
    · rw [ih]
    · rw [hsplit] at hmatch
      replace hmatch : pyStrip l = [] ∨ pyStrip r = [] := hmatch
      show (if pyStrip l ≠ [] ∧ pyStrip r ≠ [] then
          pyStrip l :: pyStrip r :: normalizeTagsGo raws'
        else t :: normalizeTagsGo raws') = t :: ts'
      rw [if_neg (by
        intro h1
        rcases hmatch with h2 | h2
        · exact absurd h2 h1.1
        · exact absurd h2 h1.2)]
      rw [ih]

theorem splitComma_join_tokens :
    ∀ (t1 : PyStr) (rest : List PyStr),
      (∀ t ∈ t1 :: rest, ∀ c ∈ t, c ≠ ',') →
      splitOnP (fun c => c == ',') (joinSep (pystr ", ") (t1 :: rest))
        = t1 :: rest.map (' ' :: ·) := by
  intro t1 rest
  induction rest generalizing t1 with
  | nil =>
    intro h
    rw [show joinSep (pystr ", ") [t1] = t1 from rfl,
      splitOnP_of_no_sep _ t1 (by
        intro c hc
        simp only [beq_iff_eq]
        exact h t1 (by simp) c hc)]
    rfl
  | cons t2 rest' ih =>
    intro h
    rw [joinSep_cons_of_ne_nil _ t1 (t2 :: rest') (by simp)]
    rw [show t1 ++ pystr ", " ++ joinSep (pystr ", ") (t2 :: rest')
        = t1 ++ (',' :: (' ' :: joinSep (pystr ", ") (t2 :: rest'))) from by
      simp [pystr, List.append_assoc]]
    rw [splitOnP_append_sep _ ',' (by simp) t1 _ (by
      intro c hc
      simp only [beq_iff_eq]
      exact h t1 (by simp) c hc)]
    rw [splitOnP_cons_neg _ ' ' _ (by simp)]
    rw [ih t2 (fun t ht c hc => h t (by
      rcases List.mem_cons.mp ht with h1 | h1
      · simp [h1]
      · simp [h1]) c hc)]
    rfl

theorem forall₂_space_tokens :
    ∀ ts : List PyStr, (∀ t ∈ ts, tokenFixed t) →
      List.Forall₂ (fun raw t => pyStrip raw = t ∧ tokenFixed t)
        (ts.map (' ' :: ·)) ts := by
  intro ts
  induction ts with
  | nil => intro _; simp
  | cons t rest ih =>
    intro h
    refine List.Forall₂.cons ⟨?_, h t (by simp)⟩ (ih (fun q hq => h q (by simp [hq])))
    rw [pyStrip_cons_space ' ' t (by decide)]
    exact (h t (by simp)).2.1

theorem normalizeTagsGo_roundtrip (ts : List PyStr) (hne : ts ≠ [])
    (h : ∀ t ∈ ts, tokenFixed t) :
    normalizeTagsGo (splitOnP (fun c => c == ',') (joinSep (pystr ", ") ts)) = ts := by
  cases ts with
  | nil => exact absurd rfl hne
  | cons t1 rest =>
    rw [splitComma_join_tokens t1 rest (fun t ht => (h t ht).2.2.1)]
    refine normalizeTagsGo_of_forall₂ _ _ ?_
    refine List.Forall₂.cons ⟨(h t1 (by simp)).2.1, h t1 (by simp)⟩ ?_
    exact forall₂_space_tokens rest (fun q hq => h q (by simp [hq]))

theorem join_tokens_ne_nil (ts : List PyStr) (hne : ts ≠ [])
    (h : ∀ t ∈ ts, t ≠ []) : joinSep (pystr ", ") ts ≠ [] := by
  cases ts with
  | nil => exact absurd rfl hne
  | cons t rest =>
    cases rest with
    | nil => exact h t (by simp)
    | cons t2 rest' =>
      rw [joinSep_cons_of_ne_nil _ t (t2 :: rest') (by simp)]
      intro hcon
      rcases List.append_eq_nil.mp hcon with ⟨h1, _⟩
      rcases List.append_eq_nil.mp h1 with ⟨h2, _⟩
      exact h t (by simp) h2

theorem strippedTagList_join (ts : List PyStr) (hne : ts ≠ [])
    (h : ∀ t ∈ ts, tokenFixed t) :
    strippedTagList (joinSep (pystr ", ") ts) = ts := by
  cases ts with
  | nil => exact absurd rfl hne
  | cons t1 rest =>
    unfold strippedTagList
    rw [splitComma_join_tokens t1 rest (fun t ht => (h t ht).2.2.1)]
    rw [List.map_cons, (h t1 (by simp)).2.1]
    rw [show (rest.map (' ' :: ·)).map pyStrip = rest from by
      rw [List.map_map]
      apply map_id_of_mem
      intro t ht
      show pyStrip (' ' :: t) = t
      rw [pyStrip_cons_space ' ' t (by decide)]
      exact (h t (by simp [ht])).2.1]
    rw [List.filter_cons, if_pos (by simp [(h t1 (by simp)).1])]
    rw [List.filter_eq_self.mpr (fun t ht => by simp [(h t (by simp [ht])).1])]

theorem dedupTagsGo_subset :
    ∀ (ts seen : List PyStr), ∀ x ∈ dedupTagsGo ts seen, x ∈ ts := by
  intro ts
  induction ts with
  | nil => intro seen x hx; simp [dedupTagsGo] at hx
  | cons t rest ih =>
    intro seen x hx
    unfold dedupTagsGo at hx
    by_cases hc : seen.contains (pyStrip (t.map pyLower))
    · rw [if_pos hc] at hx
      exact List.mem_cons_of_mem t (ih seen x hx)
    · rw [if_neg hc] at hx
      rcases List.mem_cons.mp hx with h1 | h1
      · simp [h1]
      · exact List.mem_cons_of_mem t (ih _ x h1)

theorem dedupTagsGo_of_pairwise :
    ∀ (ts seen : List PyStr),
      List.Pairwise (fun a b => pyStrip (a.map pyLower) ≠ pyStrip (b.map pyLower)) ts →
      (∀ x ∈ ts, pyStrip (x.map pyLower) ∉ seen) →
      dedupTagsGo ts seen = ts := by
  intro ts
  induction ts with
  | nil => intro seen _ _; rfl
  | cons t rest ih =>
    intro seen hpw hseen
    unfold dedupTagsGo
    rw [if_neg (by
      intro hc
      rw [List.contains_iff_exists_mem_beq] at hc
      obtain ⟨y, hy, hbeq⟩ := hc
      rw [beq_iff_eq] at hbeq
      exact hseen t (by simp) (hbeq ▸ hy))]
    rw [ih (pyStrip (t.map pyLower) :: seen) (List.Pairwise.of_cons hpw) (by
      intro x hx hmem
      rcases List.mem_cons.mp hmem with h1 | h1
      · exact (List.rel_of_pairwise_cons hpw hx) h1.symm
      · exact hseen x (by simp [hx]) h1)]

theorem dedupTagsGo_ne_nil (t : PyStr) (rest : List PyStr) :
    dedupTagsGo (t :: rest) [] ≠ [] := by
  unfold dedupTagsGo
  rw [if_neg (by simp)]
  simp

/-- The C6 Tag Normalizer pipeline fails to be idempotent on a token with two
slashes: the first pass expands only the first slash. -/
theorem claimC6_counterexample :
    tag_pipeline (tag_pipeline (pystr "a / b / c"))
      ≠ tag_pipeline (pystr "a / b / c") := by
  decide

/-- C6 (amended): the Tag Normalizer pipeline (expansion followed by
case-insensitive first-occurrence deduplication and the 40-entry cap) is
idempotent on every tag string whose comma-separated tokens each contain at
most one slash; a token with two slashes (`"a / b / c"`) is expanded only at
its first slash, so a second run expands further. -/
theorem tag_pipeline_idem_amendedC6 (tags : PyStr)
    (h : ∀ t ∈ splitOnP (fun c => c == ',') tags,
      (pyStrip t).countP (fun c => c == '/') ≤ 1) :
    tag_pipeline (tag_pipeline tags) = tag_pipeline tags := by
  by_cases htags : tags = []
  · subst htags; rfl
  · have hgood : ∀ x ∈ normalizeTagsGo (splitOnP (fun c => c == ',') tags),
        tokenFixed x := by
      apply normalizeTagsGo_tokens_fixed
      · intro raw hraw c hc
        have := mem_splitOnP_no_sep (fun c => c == ',') tags raw hraw c hc
        simpa using this
      · exact h
    have hntf : normalize_tag_format tags
        = joinSep (pystr ", ") (normalizeTagsGo (splitOnP (fun c => c == ',') tags)) := by
      unfold normalize_tag_format
      rw [if_neg htags]
    by_cases hN1 : normalizeTagsGo (splitOnP (fun c => c == ',') tags) = []
    · rw [show tag_pipeline tags = [] from by
        unfold tag_pipeline
        rw [hntf, hN1]
        rfl]
      rfl
    · have hjoin_ne : joinSep (pystr ", ")
          (normalizeTagsGo (splitOnP (fun c => c == ',') tags)) ≠ [] :=
        join_tokens_ne_nil _ hN1 (fun t ht => (hgood t ht).1)
      have hstl : strippedTagList (joinSep (pystr ", ")
            (normalizeTagsGo (splitOnP (fun c => c == ',') tags)))
          = normalizeTagsGo (splitOnP (fun c => c == ',') tags) :=
        strippedTagList_join _ hN1 hgood
      have hclean1 : cleanup_tags (joinSep (pystr ", ")
            (normalizeTagsGo (splitOnP (fun c => c == ',') tags)))
          = joinSep (pystr ", ")
            ((dedupTagsGo (normalizeTagsGo (splitOnP (fun c => c == ',') tags)) []).take 40) := by
        unfold cleanup_tags final_tags_list
        rw [if_neg hjoin_ne, if_neg hjoin_ne, hstl]
      have hpipe1 : tag_pipeline tags
          = joinSep (pystr ", ")
            ((dedupTagsGo (normalizeTagsGo (splitOnP (fun c => c == ',') tags)) []).take 40) := by
        unfold tag_pipeline
        rw [hntf, hclean1]
      have hDgood : ∀ x ∈ (dedupTagsGo
            (normalizeTagsGo (splitOnP (fun c => c == ',') tags)) []).take 40,
          tokenFixed x := by
        intro x hx
        exact hgood x (dedupTagsGo_subset _ [] x ((List.take_sublist 40 _).mem hx))
      have hDne : (dedupTagsGo
            (normalizeTagsGo (splitOnP (fun c => c == ',') tags)) []).take 40 ≠ [] := by
        rcases hN1e : normalizeTagsGo (splitOnP (fun c => c == ',') tags) with _ | ⟨t, rest⟩
        · exact absurd hN1e hN1
        · intro hcon
          rcases List.take_eq_nil_iff.mp hcon with h1 | h1
          · exact absurd h1 (by norm_num)
          · exact dedupTagsGo_ne_nil t rest h1
      have hDpw : List.Pairwise
          (fun a b => pyStrip (a.map pyLower) ≠ pyStrip (b.map pyLower))
          ((dedupTagsGo (normalizeTagsGo (splitOnP (fun c => c == ',') tags)) []).take 40) :=
        List.Pairwise.sublist (List.take_sublist 40 _) (dedupTagsGo_pairwise _ [])
      have hjoinD_ne : joinSep (pystr ", ") ((dedupTagsGo
            (normalizeTagsGo (splitOnP (fun c => c == ',') tags)) []).take 40) ≠ [] :=
        join_tokens_ne_nil _ hDne (fun t ht => (hDgood t ht).1)
      have hntf2 : normalize_tag_format (joinSep (pystr ", ") ((dedupTagsGo
            (normalizeTagsGo (splitOnP (fun c => c == ',') tags)) []).take 40))
          = joinSep (pystr ", ") ((dedupTagsGo
            (normalizeTagsGo (splitOnP (fun c => c == ',') tags)) []).take 40) := by
        unfold normalize_tag_format
        rw [if_neg hjoinD_ne, normalizeTagsGo_roundtrip _ hDne hDgood]
      have hstl2 : strippedTagList (joinSep (pystr ", ") ((dedupTagsGo
            (normalizeTagsGo (splitOnP (fun c => c == ',') tags)) []).take 40))
          = (dedupTagsGo (normalizeTagsGo (splitOnP (fun c => c == ',') tags)) []).take 40 :=
        strippedTagList_join _ hDne hDgood
      have hdedup2 : dedupTagsGo ((dedupTagsGo
            (normalizeTagsGo (splitOnP (fun c => c == ',') tags)) []).take 40) []
          = (dedupTagsGo (normalizeTagsGo (splitOnP (fun c => c == ',') tags)) []).take 40 :=
        dedupTagsGo_of_pairwise _ [] hDpw (by simp)
      have htake2 : ((dedupTagsGo
            (normalizeTagsGo (splitOnP (fun c => c == ',') tags)) []).take 40).take 40
          = (dedupTagsGo (normalizeTagsGo (splitOnP (fun c => c == ',') tags)) []).take 40 := by
        rw [List.take_take]
        norm_num
      have hclean2 : cleanup_tags (joinSep (pystr ", ") ((dedupTagsGo
            (normalizeTagsGo (splitOnP (fun c => c == ',') tags)) []).take 40))
          = joinSep (pystr ", ") ((dedupTagsGo
            (normalizeTagsGo (splitOnP (fun c => c == ',') tags)) []).take 40) := by
        unfold cleanup_tags final_tags_list
        rw [if_neg hjoinD_ne, if_neg hjoinD_ne, hstl2, hdedup2, htake2]
      rw [hpipe1]
      unfold tag_pipeline
      rw [hntf2, hclean2]

theorem tag_pipeline_idem_amendedC6_witness :
    tag_pipeline (tag_pipeline (pystr "building / مبنى, tree"))
      = tag_pipeline (pystr "building / مبنى, tree") :=
  tag_pipeline_idem_amendedC6 (pystr "building / مبنى, tree") (by decide)

theorem head?_append_left (A B : PyStr) (hA : A ≠ []) :
    (A ++ B).head? = A.head? := by
  cases A with
  | nil => exact absurd rfl hA
  | cons a t => rfl

theorem getLast?_append_right (A B : PyStr) (hB : B ≠ []) :
    (A ++ B).getLast? = B.getLast? := by
  rw [List.getLast?_append]
  rcases hb : B.getLast? with _ | y
  · exfalso
    cases B with
    | nil => exact hB rfl
    | cons b t => simp [List.getLast?_cons] at hb
  · rfl

theorem pyStrip_of_strip_image (X Z : PyStr) (h : X = pyStrip Z) :
    pyStrip X = X := by
  rw [h, pyStrip_idem]

theorem pyStrip_of_clean_base_fixed (X : PyStr) (h : clean_base X = X) :
    pyStrip X = X :=
  pyStrip_of_strip_image X _ (by rw [← h]; rfl)

theorem pyStrip_of_clean_segment_fixed (X : PyStr) (h : clean_segment X = X) :
    pyStrip X = X :=
  pyStrip_of_strip_image X _ (by rw [← h]; rfl)

theorem pyStrip_value_fixed (X Y : PyStr) (hX : pyStrip X = X) (hY : pyStrip Y = Y)
    (hXne : X ≠ []) (hYne : Y ≠ []) :
    pyStrip (X ++ pystr " / " ++ Y) = X ++ pystr " / " ++ Y := by
  apply pyStrip_eq_self_of_edges
  · rw [List.append_assoc, head?_append_left X _ hXne]
    intro c hc
    have := pyStrip_head_not_space X
    rw [hX] at this
    exact this c hc
  · rw [getLast?_append_right _ Y hYne]
    intro c hc
    have := pyStrip_last_not_space Y
    rw [hY] at this
    exact this c hc

theorem valueAfterColon_assetLabel (v : PyStr) :
    valueAfterColon (pystr "Asset Name: " ++ v) = pyStrip v := by
  unfold valueAfterColon
  rw [show splitOnceSeq [':'] (pystr "Asset Name: " ++ v)
      = some (pystr "Asset Name", ' ' :: v) from rfl]
  exact pyStrip_cons_space ' ' v (by decide)

theorem splitOnce_single_none_of_not_contains (sc : Char) (s : PyStr)
    (h : s.contains sc = false) : splitOnceSeq [sc] s = none := by
  apply splitOnceSeq_single_none
  intro c hc hcon
  rw [hcon] at hc
  have h2 : s.contains sc = true := List.contains_iff_exists_mem_beq.mpr ⟨sc, hc, by simp⟩
  rw [h] at h2
  exact Bool.noConfusion h2

theorem trySeparators_cons_none (sep : PyStr) (rest : List PyStr) (value : PyStr)
    (h : splitOnceSeq sep value = none) :
    trySeparators (sep :: rest) value = trySeparators rest value := by
  conv_lhs => unfold trySeparators
  rw [h]

theorem trySeparators_cons_hit_right (sep : PyStr) (rest : List PyStr)
    (value l r : PyStr) (h : splitOnceSeq sep value = some (l, r))
    (hl : pyStrip l ≠ []) (hr : pyStrip r ≠ [])
    (hla : has_arabic (pyStrip l) = false) (hra : has_arabic (pyStrip r) = true) :
    trySeparators (sep :: rest) value
      = some (clean_segment (pyStrip l), clean_segment (pyStrip r)) := by
  conv_lhs => unfold trySeparators
  rw [h]
  show (if pyStrip l = [] ∨ pyStrip r = [] then trySeparators rest value
    else if (has_arabic (pyStrip l)) ≠ (has_arabic (pyStrip r)) then
      if has_arabic (pyStrip r) then
        some (clean_segment (pyStrip l), clean_segment (pyStrip r))
      else some (clean_segment (pyStrip r), clean_segment (pyStrip l))
    else trySeparators rest value)
      = some (clean_segment (pyStrip l), clean_segment (pyStrip r))
  rw [if_neg (by
    intro hcon
    rcases hcon with hcon | hcon
    · exact hl hcon
    · exact hr hcon)]
  rw [if_pos (by rw [hla, hra]; simp), if_pos (by rw [hra])]

theorem value_join_words (X Y : PyStr) (hX : clean_base X = X) (hY : clean_base Y = Y)
    (hXne : X ≠ []) (hYne : Y ≠ []) :
    X ++ pystr " / " ++ Y
      = joinSep [' '] (pySplitWS X ++ ([['/']] ++ pySplitWS Y)) := by
  have hXj : X = joinSep [' '] (pySplitWS X) := by rw [← clean_base_eq_join, hX]
  have hYj : Y = joinSep [' '] (pySplitWS Y) := by rw [← clean_base_eq_join, hY]
  have hwsX : pySplitWS X ≠ [] := by
    intro h0
    rw [h0] at hXj
    exact hXne hXj
  have hwsY : pySplitWS Y ≠ [] := by
    intro h0
    rw [h0] at hYj
    exact hYne hYj
  rw [joinSep_append [' '] (pySplitWS X) ([['/']] ++ pySplitWS Y) hwsX (by simp),
    joinSep_append [' '] [['/']] (pySplitWS Y) (by simp) hwsY]
  rw [show joinSep [' '] [['/']] = ['/'] from rfl]
  rw [← hXj, ← hYj]
  simp [pystr, List.append_assoc]

theorem collapse_value (X Y : PyStr) (hX : clean_base X = X) (hY : clean_base Y = Y)
    (hXne : X ≠ []) (hYne : Y ≠ []) :
    joinSep [' '] (pySplitWS (X ++ pystr " / " ++ Y)) = X ++ pystr " / " ++ Y := by
  rw [value_join_words X Y hX hY hXne hYne]
  rw [words_join _ ?hclean]
  case hclean =>
    intro w hw
    rcases List.mem_append.mp hw with h1 | h1
    · exact mem_pySplitWS X w h1
    · rcases List.mem_cons.mp h1 with h2 | h2
      · subst h2
        exact ⟨by simp, by intro c hc; simp at hc; subst hc; decide⟩
      · exact mem_pySplitWS Y w h2

/-- C7 (amended): when the authoritative (last) `"asset name:"` line of the
text is exactly `"Asset Name: X / Y"`, X is a clean Arabic-free segment,
Y a clean Arabic-bearing segment, neither
contains a pipe, the combined value contains none of the higher-priority
separators and its first `" / "` occurrence is the X/Y boundary, then parsing
returns `english_name = X` and `arabic_name = Y` exactly. -/
theorem parse_metadata_amendedC7 (text X Y : PyStr)
    (hline : lastLineWith isAssetLine (pyLines text)
        = pystr "Asset Name: " ++ (X ++ pystr " / " ++ Y))
    (hXne : X ≠ []) (hYne : Y ≠ [])
    (hXar : has_arabic X = false) (hYar : has_arabic Y = true)
    (hXclean : clean_segment X = X) (hYclean : clean_segment Y = Y)
    (hXcb : clean_base X = X) (hYcb : clean_base Y = Y)
    (hsep1 : splitOnceSeq (pystr " - ") (X ++ pystr " / " ++ Y) = none)
    (hsep2 : splitOnceSeq (pystr " – ") (X ++ pystr " / " ++ Y) = none)
    (hsep3 : splitOnceSeq (pystr " — ") (X ++ pystr " / " ++ Y) = none)
    (hboundary : splitOnceSeq (pystr " / ") (X ++ pystr " / " ++ Y) = some (X, Y))
    (hpipe : (X ++ pystr " / " ++ Y).contains '|' = false) :
    (parse_metadata text).1 = X ∧ (parse_metadata text).2.1 = Y := by
  have hXstrip : pyStrip X = X := pyStrip_of_clean_base_fixed X hXcb
  have hYstrip : pyStrip Y = Y := pyStrip_of_clean_base_fixed Y hYcb
  have hvstrip : pyStrip (X ++ pystr " / " ++ Y) = X ++ pystr " / " ++ Y :=
    pyStrip_value_fixed X Y hXstrip hYstrip hXne hYne
  have hvar : has_arabic (X ++ pystr " / " ++ Y) = true := by
    unfold has_arabic at hYar ⊢
    rw [List.any_append]
    rw [hYar]
    simp
  have hvne : X ++ pystr " / " ++ Y ≠ [] := by
    intro h0
    rcases List.append_eq_nil.mp h0 with ⟨h1, _⟩
    rcases List.append_eq_nil.mp h1 with ⟨h2, _⟩
    exact hXne h2
  have hfst : (extract_fields text).1 = X ++ pystr " / " ++ Y := by
    unfold extract_fields
    simp only [scanLabels_fst]
    rw [show ((pyLines text).filter isAssetLine).getLast?.getD []
        = lastLineWith isAssetLine (pyLines text) from rfl]
    rw [hline, valueAfterColon_assetLabel, hvstrip]
    rw [if_neg (by
      intro hcon
      rw [hvar] at hcon
      simp at hcon)]
  have hsplit : split_bilingual_name (X ++ pystr " / " ++ Y) = (X, Y) := by
    unfold split_bilingual_name
    rw [collapse_value X Y hXcb hYcb hXne hYne]
    rw [if_neg hvne]
    rw [splitOnce_single_none_of_not_contains '|' _ hpipe]
    rw [show SEPARATORS = pystr " - " :: pystr " – " :: pystr " — " ::
        pystr " / " :: pystr " • " :: pystr " /" :: pystr "/ " ::
        pystr " | " :: [pystr "|"] from rfl]
    rw [trySeparators_cons_none _ _ _ hsep1,
      trySeparators_cons_none _ _ _ hsep2,
      trySeparators_cons_none _ _ _ hsep3,
      trySeparators_cons_hit_right _ _ _ X Y hboundary
        (by rw [hXstrip]; exact hXne) (by rw [hYstrip]; exact hYne)
        (by rw [hXstrip]; exact hXar) (by rw [hYstrip]; exact hYar)]
    rw [hXstrip, hYstrip, hXclean, hYclean]
  refine ⟨?_, ?_⟩
  · show (split_bilingual_name (extract_fields text).1).1 = X
    rw [hfst, hsplit]
  · show (split_bilingual_name (extract_fields text).1).2 = Y
    rw [hfst, hsplit]

theorem parse_metadata_amendedC7_witness :
    (parse_metadata (pystr "Asset Name: Studio HQ / مبنى الاستوديو")).1
        = pystr "Studio HQ" ∧
      (parse_metadata (pystr "Asset Name: Studio HQ / مبنى الاستوديو")).2.1
        = pystr "مبنى الاستوديو" :=
  parse_metadata_amendedC7 (pystr "Asset Name: Studio HQ / مبنى الاستوديو")
    (pystr "Studio HQ") (pystr "مبنى الاستوديو")
    (by decide) (by decide) (by decide) (by decide) (by decide)
    (by decide) (by decide) (by decide) (by decide) (by decide)
    (by decide) (by decide) (by decide) (by decide)

/-- The C7 counterexample text: a single asset-name line whose Latin-only X
segment contains the higher-priority separator `" - "`. -/
def cexC7 : PyStr := pystr "Asset Name: A - B / مبنى"

/-- C7 (counterexample): the text contains the line `"Asset Name: X / Y"`
with X = `"A - B"` Latin-only and Y = `"مبنى"` Arabic-only, yet parsing
returns english `"A"` and arabic `"B / مبنى"` — the separator loop tries
`" - "` before `" / "`. -/
theorem claimC7_counterexample :
    (pyLines cexC7).contains
        (pystr "Asset Name: " ++ (pystr "A - B" ++ pystr " / " ++ pystr "مبنى"))
        = true ∧
      has_latin (pystr "A - B") = true ∧ has_arabic (pystr "A - B") = false ∧
      has_arabic (pystr "مبنى") = true ∧ has_latin (pystr "مبنى") = false ∧
      (parse_metadata cexC7).1 = pystr "A" ∧
      (parse_metadata cexC7).2.1 = pystr "B / مبنى" ∧
      (parse_metadata cexC7).1 ≠ pystr "A - B" := by
  refine ⟨by decide, by decide, by decide, by decide, by decide, by decide,
    by decide, by decide⟩
